import Mathlib

/-!
Verification development for the transport / pagination / query-normalization
core of the mcp-server-atlassian-confluence repository.

The definitions below are a shallow embedding of:
  - `processCqlQuery` (src/controllers/atlassian.search.formatter.ts), including
    the two JavaScript regex replacements it performs and its free-text rewrite;
  - `extractPaginationInfo` (src/utils/pagination.util.ts);
  - the header assembly and error classification of `fetchAtlassian`
    (src/utils/transport.util.ts).

JavaScript strings are modelled as `List Char` (the claims only exercise
scalar-value semantics); JavaScript regex replacement with the two concrete
patterns of the source is modelled by explicit left-to-right scanners that
reproduce the leftmost-match, greedy, backtracking and negative-lookahead
behaviour of those exact patterns.
-/

namespace ConfluenceCore

/-! ## JavaScript character classes -/

/-- The character class `\w` of a JavaScript regex without the `u` flag:
ASCII letters, digits and underscore. -/
def isWordChar (c : Char) : Bool :=
  c.isAlphanum || c == '_'

/-- The character class `\s` of a JavaScript regex:
whitespace and line terminators. -/
def isSpaceJS (c : Char) : Bool :=
  c == '\t' || c == '\n' || c == '\x0B' || c == '\x0C' || c == '\r' ||
  c == ' ' || c == '\u00A0' || c == '\u1680' || c == '\u2000' ||
  c == '\u2001' || c == '\u2002' || c == '\u2003' || c == '\u2004' ||
  c == '\u2005' || c == '\u2006' || c == '\u2007' || c == '\u2008' ||
  c == '\u2009' || c == '\u200A' || c == '\u2028' || c == '\u2029' ||
  c == '\u202F' || c == '\u205F' || c == '\u3000' || c == '\uFEFF' 

/-! ## The reserved-keyword table of processCqlQuery -/

/-- The reserved keywords listed in `processCqlQuery`
(src/controllers/atlassian.search.formatter.ts lines 77 to 90). -/
def reservedKeywords : List (List Char) :=
  [['A','N','D'], ['O','R'], ['N','O','T'], ['I','N'],
   ['L','I','K','E'], ['I','S'], ['N','U','L','L'], ['E','M','P','T','Y'],
   ['O','R','D','E','R'], ['B','Y'], ['A','S','C'], ['D','E','S','C']]

/-- The test `reservedKeywords.includes(value.toUpperCase())` of the source.
The matched values consist of `\w` characters, which are ASCII, so
`String.prototype.toUpperCase` agrees with `Char.toUpper` on them. -/
def isReserved (v : List Char) : Bool :=
  reservedKeywords.contains (v.map Char.toUpper)

/-! ## The two regex replacements of processCqlQuery

The source applies, in order,
  `replace(/space\s*=\s*(\w+)(?!\s*")/g, cb)` and
  `replace(/(\w+)\s*=\s*(\w+)(?!\s*")/g, cb)`
where the callback returns `key="value"` when the captured value is a
reserved keyword and the original match text otherwise.  `scan1` and `scan2`
below reproduce the exact engine behaviour of those two patterns:
the scan is leftmost (advance one position on failure, resume after the
match on success), `\w+` is greedy and backtracks at most one character
when the negative lookahead `(?!\s*")` fails (giving back one word
character always satisfies the lookahead), and a successful match whose
value is not reserved is emitted verbatim but still consumed. -/

/-- The lookahead test `(?=\s*")`: optional `\s` run followed by a quote. -/
def lookaheadQuote (l : List Char) : Bool :=
  match l.dropWhile isSpaceJS with
  | '"' :: _ => true
  | _ => false

/-- Match `(\w+)(?!\s*")` at the head of `l`: the greedy word run, backing
off one character when the lookahead fails.  Returns the captured value and
the rest of the input. -/
def matchValue (l : List Char) : Option (List Char × List Char) :=
  let run := l.takeWhile isWordChar
  let rest := l.dropWhile isWordChar
  match run with
  | [] => none
  | [c] => if lookaheadQuote rest then none else some ([c], rest)
  | c1 :: c2 :: rs =>
    if lookaheadQuote rest then
      some ((c1 :: c2 :: rs).dropLast, (c1 :: c2 :: rs).getLastD 'x' :: rest)
    else
      some (c1 :: c2 :: rs, rest)

/-- Match `\s*=\s*(\w+)(?!\s*")` at the head of `l` (the part of both regex
patterns that follows the key).  Returns the two whitespace runs, the
captured value and the rest of the input. -/
def matchAfterKey (l : List Char) :
    Option (List Char × List Char × List Char × List Char) :=
  let w1 := l.takeWhile isSpaceJS
  match l.dropWhile isSpaceJS with
  | '=' :: l2 =>
    let w2 := l2.takeWhile isSpaceJS
    match matchValue (l2.dropWhile isSpaceJS) with
    | some (v, rest) => some (w1, w2, v, rest)
    | none => none
  | _ => none

theorem matchValue_rest_length_lt {l v rest} (h : matchValue l = some (v, rest)) :
    rest.length < l.length := by
  have hl : l.takeWhile isWordChar ++ l.dropWhile isWordChar = l :=
    List.takeWhile_append_dropWhile isWordChar l
  have hlen := congrArg List.length hl
  simp only [List.length_append] at hlen
  simp only [matchValue] at h
  split at h
  · simp at h
  · split at h
    · simp at h
    · rename_i heq _
      rw [heq] at hlen
      cases h
      simp at hlen
      omega
  · rename_i c1 c2 rs heq
    rw [heq] at hlen
    split at h <;> cases h <;> simp at hlen ⊢ <;> omega

theorem matchAfterKey_rest_length_lt {l w1 w2 v rest}
    (h : matchAfterKey l = some (w1, w2, v, rest)) : rest.length < l.length := by
  simp only [matchAfterKey] at h
  split at h
  case h_1 l2 heq =>
    split at h
    case h_1 v0 rest0 hmv =>
      cases h
      have h1 : rest.length < (l2.dropWhile isSpaceJS).length :=
        matchValue_rest_length_lt hmv
      have h2 : (l2.dropWhile isSpaceJS).length ≤ l2.length :=
        (List.dropWhile_sublist _).length_le
      have h3 : ('=' :: l2).length ≤ l.length := by
        rw [← heq]
        exact (List.dropWhile_sublist _).length_le
      simp at h3
      omega
    · simp at h
  · simp at h

/-- The five characters of the literal `space` in the first regex. -/
def spaceLit : List Char := ['s', 'p', 'a', 'c', 'e']

/-- Strip the literal `space` from the head of the input. -/
def stripSpaceLit (l : List Char) : Option (List Char) :=
  match l with
  | 's' :: 'p' :: 'a' :: 'c' :: 'e' :: t => some t
  | _ => none

theorem stripSpaceLit_length {l t} (h : stripSpaceLit l = some t) :
    l.length = t.length + 5 := by
  unfold stripSpaceLit at h
  split at h
  · cases h
    simp
  · simp at h

/-- The global replacement pass of
`replace(/space\s*=\s*(\w+)(?!\s*")/g, cb)`, on fuel that `scan1` always
supplies in sufficient quantity (each step consumes at least one input
character, so the fuel-exhausted arm is never reached): at each position,
try the pattern; on success emit the callback result (the quoted rewrite
when the value is reserved, the match text otherwise) and resume after the
match; on failure emit one character and advance. -/
def scan1Aux : Nat → List Char → List Char
  | _, [] => []
  | 0, c :: t => c :: t
  | fuel + 1, c :: t =>
    match stripSpaceLit (c :: t) with
    | some l5 =>
      match matchAfterKey l5 with
      | some (w1, w2, v, rest) =>
        if isReserved v then
          spaceLit ++ '=' :: '"' :: v ++ '"' :: scan1Aux fuel rest
        else
          spaceLit ++ w1 ++ '=' :: w2 ++ v ++ scan1Aux fuel rest
      | none => c :: scan1Aux fuel t
    | none => c :: scan1Aux fuel t

/-- The first replacement pass of `processCqlQuery`. -/
def scan1 (l : List Char) : List Char :=
  scan1Aux l.length l

theorem stripSpaceLit_rest_le {c : Char} {t l5 : List Char}
    (h : stripSpaceLit (c :: t) = some l5) : l5.length + 4 = t.length := by
  have := stripSpaceLit_length h
  simp at this
  omega

theorem scan1Aux_irrel : ∀ f1 f2 l, l.length ≤ f1 → l.length ≤ f2 →
    scan1Aux f1 l = scan1Aux f2 l := by
  intro f1
  induction f1 with
  | zero =>
    intro f2 l h1 h2
    have : l = [] := List.eq_nil_of_length_eq_zero (by omega)
    subst this
    cases f2 <;> rfl
  | succ g1 ih =>
    intro f2 l h1 h2
    cases l with
    | nil => cases f2 <;> rfl
    | cons c t =>
      simp only [List.length_cons] at h1 h2
      cases f2 with
      | zero => omega
      | succ g2 =>
        simp only [scan1Aux]
        cases hs : stripSpaceLit (c :: t) with
        | none => rw [ih g2 t (by omega) (by omega)]
        | some l5 =>
          simp only []
          cases hm : matchAfterKey l5 with
          | none => rw [ih g2 t (by omega) (by omega)]
          | some q =>
            obtain ⟨w1, w2, v, rest⟩ := q
            simp only []
            have hb1 := stripSpaceLit_rest_le hs
            have hb2 := matchAfterKey_rest_length_lt hm
            rw [ih g2 rest (by omega) (by omega)]

/-- The one-step unfolding of `scan1`. -/
theorem scan1_cons (c : Char) (t : List Char) :
    scan1 (c :: t) =
      match stripSpaceLit (c :: t) with
      | some l5 =>
        match matchAfterKey l5 with
        | some (w1, w2, v, rest) =>
          if isReserved v then
            spaceLit ++ '=' :: '"' :: v ++ '"' :: scan1 rest
          else
            spaceLit ++ w1 ++ '=' :: w2 ++ v ++ scan1 rest
        | none => c :: scan1 t
      | none => c :: scan1 t := by
  show scan1Aux (c :: t).length (c :: t) = _
  simp only [List.length_cons, scan1Aux]
  cases hs : stripSpaceLit (c :: t) with
  | none => rfl
  | some l5 =>
    simp only []
    cases hm : matchAfterKey l5 with
    | none => rfl
    | some q =>
      obtain ⟨w1, w2, v, rest⟩ := q
      simp only []
      have hb1 := stripSpaceLit_rest_le hs
      have hb2 := matchAfterKey_rest_length_lt hm
      have hrw : scan1Aux t.length rest = scan1 rest :=
        scan1Aux_irrel t.length rest.length rest (by omega) (le_refl _)
      rw [hrw]

theorem scan1_nil : scan1 [] = [] := rfl

/-- The global replacement pass of
`replace(/(\w+)\s*=\s*(\w+)(?!\s*")/g, cb)`, on fuel that `scan2`
always supplies in sufficient quantity.  The key `(\w+)` is greedy; if the
rest of the pattern fails after the maximal word run there is no match at
this position (giving back a key character would put a word character where
`\s*=` must match), so the scan advances one position. -/
def scan2Aux : Nat → List Char → List Char
  | _, [] => []
  | 0, c :: t => c :: t
  | fuel + 1, c :: t =>
    if isWordChar c then
      match matchAfterKey (t.dropWhile isWordChar) with
      | some (w1, w2, v, rest) =>
        if isReserved v then
          (c :: t.takeWhile isWordChar) ++ '=' :: '"' :: v ++ '"' :: scan2Aux fuel rest
        else
          (c :: t.takeWhile isWordChar) ++ w1 ++ '=' :: w2 ++ v ++ scan2Aux fuel rest
      | none => c :: scan2Aux fuel t
    else
      c :: scan2Aux fuel t

/-- The second replacement pass of `processCqlQuery`. -/
def scan2 (l : List Char) : List Char :=
  scan2Aux l.length l

theorem scan2Aux_irrel : ∀ f1 f2 l, l.length ≤ f1 → l.length ≤ f2 →
    scan2Aux f1 l = scan2Aux f2 l := by
  intro f1
  induction f1 with
  | zero =>
    intro f2 l h1 h2
    have : l = [] := List.eq_nil_of_length_eq_zero (by omega)
    subst this
    cases f2 <;> rfl
  | succ g1 ih =>
    intro f2 l h1 h2
    cases l with
    | nil => cases f2 <;> rfl
    | cons c t =>
      simp only [List.length_cons] at h1 h2
      cases f2 with
      | zero => omega
      | succ g2 =>
        simp only [scan2Aux]
        by_cases hw : isWordChar c
        · simp only [hw, if_true]
          cases hm : matchAfterKey (t.dropWhile isWordChar) with
          | none => rw [ih g2 t (by omega) (by omega)]
          | some q =>
            obtain ⟨w1, w2, v, rest⟩ := q
            simp only []
            have hb2 := matchAfterKey_rest_length_lt hm
            have hb3 : (t.dropWhile isWordChar).length ≤ t.length :=
              (List.dropWhile_sublist _).length_le
            rw [ih g2 rest (by omega) (by omega)]
        · simp only [hw, Bool.false_eq_true, if_false]
          rw [ih g2 t (by omega) (by omega)]

/-- The one-step unfolding of `scan2`. -/
theorem scan2_cons (c : Char) (t : List Char) :
    scan2 (c :: t) =
      (if isWordChar c then
        match matchAfterKey (t.dropWhile isWordChar) with
        | some (w1, w2, v, rest) =>
          if isReserved v then
            (c :: t.takeWhile isWordChar) ++ '=' :: '"' :: v ++ '"' :: scan2 rest
          else
            (c :: t.takeWhile isWordChar) ++ w1 ++ '=' :: w2 ++ v ++ scan2 rest
        | none => c :: scan2 t
      else
        c :: scan2 t) := by
  show scan2Aux (c :: t).length (c :: t) = _
  simp only [List.length_cons, scan2Aux]
  by_cases hw : isWordChar c
  · simp only [hw, if_true]
    cases hm : matchAfterKey (t.dropWhile isWordChar) with
    | none => rfl
    | some q =>
      obtain ⟨w1, w2, v, rest⟩ := q
      simp only []
      have hb2 := matchAfterKey_rest_length_lt hm
      have hb3 : (t.dropWhile isWordChar).length ≤ t.length :=
        (List.dropWhile_sublist _).length_le
      have hrw : scan2Aux t.length rest = scan2 rest :=
        scan2Aux_irrel t.length rest.length rest (by omega) (le_refl _)
      rw [hrw]
  · simp only [hw, Bool.false_eq_true, if_false]
    rfl

theorem scan2_nil : scan2 [] = [] := rfl

/-! ## Step 3 of processCqlQuery: the free-text rewrite -/

/-- Substring containment, as `String.prototype.includes`. -/
def hasSub (pat : List Char) : List Char → Bool
  | [] => pat.isEmpty
  | c :: l => pat.isPrefixOf (c :: l) || hasSub pat l

/-- `String.prototype.split(' ')`: split at every space character,
keeping empty segments. -/
def splitOnSpace : List Char → List (List Char)
  | [] => [[]]
  | ' ' :: l => [] :: splitOnSpace l
  | c :: l =>
    match splitOnSpace l with
    | t :: ts => (c :: t) :: ts
    | [] => [[c]]

/-- `String.prototype.split(sep)` for a one-character separator,
keeping empty segments. -/
def splitOn (sep : Char) : List Char → List (List Char)
  | [] => [[]]
  | c :: l =>
    if c = sep then [] :: splitOn sep l
    else
      match splitOn sep l with
      | t :: ts => (c :: t) :: ts
      | [] => [[c]]

/-- The truthiness of `term.trim()`: the term has a character that is not
whitespace. -/
def trimTruthy (t : List Char) : Bool :=
  t.any (fun c => ! isSpaceJS c)

/-- One rewritten clause `text~"term"`. -/
def textClause (t : List Char) : List Char :=
  't' :: 'e' :: 'x' :: 't' :: '~' :: '"' :: t ++ ['"']

/-- `terms.map(term => 'text~"term"').join(' AND ')`. -/
def joinAnd : List (List Char) → List Char
  | [] => []
  | [t] => textClause t
  | t :: t2 :: ts => textClause t ++ ' ' :: 'A' :: 'N' :: 'D' :: ' ' :: joinAnd (t2 :: ts)

/-- The test `/[=~()]/.test(processedCql)` of the source. -/
def hasComplexSyntax (l : List Char) : Bool :=
  l.any (fun c => c == '=' || c == '~' || c == '(' || c == ')')

/-- Step 3 of `processCqlQuery` (source lines 117 to 136): when the query
has none of the space-padded substrings `" AND "`, `" OR "`, `" NOT "` but
has a space, split it at spaces, and when more than one term survives the
trim filter and the query has none of `=`, `~`, `(`, `)`, rejoin the terms
as `text~"term"` clauses separated by `" AND "`. -/
def step3 (l : List Char) : List Char :=
  if !hasSub [' ','A','N','D',' '] l && !hasSub [' ','O','R',' '] l &&
      !hasSub [' ','N','O','T',' '] l && l.contains ' ' then
    let terms := (splitOnSpace l).filter trimTruthy
    if terms.length > 1 then
      if !hasComplexSyntax l then joinAnd terms else l
    else l
  else l

/-- `processCqlQuery` of src/controllers/atlassian.search.formatter.ts:
the two keyword-quoting regex passes followed by the free-text rewrite. -/
def processCqlQuery (cql : String) : String :=
  ⟨step3 (scan2 (scan1 cql.data))⟩

/-! ## Pagination: src/utils/pagination.util.ts -/

/-- JavaScript truthiness of an optional string: absent and the empty
string are falsy. -/
def jsTruthyS : Option String → Bool
  | none => false
  | some s => s != ""

/-- A digit list for a natural number, least significant first.  The fuel
argument makes the recursion structural; `natDigitsRev` supplies fuel that
always suffices, so the fuel-exhausted arm is never reached. -/
def natDigitsRevAux : Nat → Nat → List Char
  | 0, n => [Char.ofNat (48 + n % 10)]
  | fuel + 1, n =>
    if n < 10 then [Char.ofNat (48 + n)]
    else Char.ofNat (48 + n % 10) :: natDigitsRevAux fuel (n / 10)

/-- A digit list for a natural number, least significant first. -/
def natDigitsRev (n : Nat) : List Char :=
  natDigitsRevAux n n

/-- `String(n)` of JavaScript for a whole number. -/
def natToStringJs (n : Nat) : String :=
  ⟨(natDigitsRev n).reverse⟩

/-- `String(i)` of JavaScript for a whole number, signed. -/
def intToStringJs (i : Int) : String :=
  if i < 0 then "-" ++ natToStringJs i.natAbs else natToStringJs i.natAbs

/-- The value of one hexadecimal digit. -/
def hexVal (c : Char) : Option Nat :=
  if '0' ≤ c ∧ c ≤ '9' then some (c.toNat - 48)
  else if 'a' ≤ c ∧ c ≤ 'f' then some (c.toNat - 87)
  else if 'A' ≤ c ∧ c ≤ 'F' then some (c.toNat - 55)
  else none

/-- Read one `%hh` escape from the head of the input: the byte value and the
rest.  Fails when the head is not a percent sign followed by two hexadecimal
digits (`decodeURIComponent` raises `URIError` there). -/
def readPct : List Char → Option (Nat × List Char)
  | '%' :: h1 :: h2 :: rest =>
    match hexVal h1, hexVal h2 with
    | some a, some b => some (16 * a + b, rest)
    | _, _ => none
  | _ => none

theorem readPct_rest_length {l b rest} (h : readPct l = some (b, rest)) :
    l.length = rest.length + 3 := by
  unfold readPct at h
  split at h
  · split at h
    · cases h
      simp
    · simp at h
  · simp at h

/-- A UTF-8 continuation byte. -/
def utf8Cont (b : Nat) : Bool :=
  decide (128 ≤ b ∧ b ≤ 191)

/-- The constraint on the second byte of a UTF-8 sequence, given the leading
byte (this is what rules out overlong encodings and surrogate code points). -/
def utf8Second (b b2 : Nat) : Bool :=
  if b == 224 then decide (160 ≤ b2 ∧ b2 ≤ 191)
  else if b == 237 then decide (128 ≤ b2 ∧ b2 ≤ 159)
  else if b == 240 then decide (144 ≤ b2 ∧ b2 ≤ 191)
  else if b == 244 then decide (128 ≤ b2 ∧ b2 ≤ 143)
  else utf8Cont b2

/-- The builtin `decodeURIComponent`, on fuel that `decodePercent` always
supplies in sufficient quantity (every step consumes at least one input
character, so the fuel-exhausted arm is never reached): every `%hh` escape
is decoded, the escaped byte sequences must form valid UTF-8, every other
character passes through, and `none` models the `URIError` throw on
malformed input. -/
def decodePercentAux : Nat → List Char → Option (List Char)
  | _, [] => some []
  | 0, _ :: _ => none
  | fuel + 1, '%' :: t =>
    match readPct ('%' :: t) with
    | none => none
    | some (b, r1) =>
      if b < 128 then (decodePercentAux fuel r1).map (fun cs => Char.ofNat b :: cs)
      else if 194 ≤ b ∧ b ≤ 223 then
        match readPct r1 with
        | some (b2, r2) =>
          if utf8Cont b2 then
            (decodePercentAux fuel r2).map (fun cs =>
              Char.ofNat ((b - 192) * 64 + (b2 - 128)) :: cs)
          else none
        | none => none
      else if 224 ≤ b ∧ b ≤ 239 then
        match readPct r1 with
        | some (b2, r2) =>
          match readPct r2 with
          | some (b3, r3) =>
            if utf8Second b b2 && utf8Cont b3 then
              (decodePercentAux fuel r3).map (fun cs =>
                Char.ofNat ((b - 224) * 4096 + (b2 - 128) * 64 + (b3 - 128)) :: cs)
            else none
          | none => none
        | none => none
      else if 240 ≤ b ∧ b ≤ 244 then
        match readPct r1 with
        | some (b2, r2) =>
          match readPct r2 with
          | some (b3, r3) =>
            match readPct r3 with
            | some (b4, r4) =>
              if utf8Second b b2 && utf8Cont b3 && utf8Cont b4 then
                (decodePercentAux fuel r4).map (fun cs =>
                  Char.ofNat ((b - 240) * 262144 + (b2 - 128) * 4096 +
                    (b3 - 128) * 64 + (b4 - 128)) :: cs)
              else none
            | none => none
          | none => none
        | none => none
      else none
  | fuel + 1, c :: t => (decodePercentAux fuel t).map (fun cs => c :: cs)

/-- The builtin `decodeURIComponent`. -/
def decodePercent (l : List Char) : Option (List Char) :=
  decodePercentAux l.length l

/-- The seven characters of the literal `cursor=` in the regex
`/cursor=([^&]+)/`. -/
def cursorKey : List Char := ['c', 'u', 'r', 's', 'o', 'r', '=']

/-- `nextUrl.match(/cursor=([^&]+)/)`: the leftmost position where the
literal `cursor=` is followed by at least one character other than `&`;
the capture is the maximal such run. -/
def findCursorParam : List Char → Option (List Char)
  | [] => none
  | c :: t =>
    if cursorKey.isPrefixOf (c :: t) then
      let run := ((c :: t).drop 7).takeWhile (fun ch => ch != '&')
      if run.isEmpty then findCursorParam t else some run
    else findCursorParam t

/-- The `_links` object of a cursor-paginated Confluence response. -/
structure PaginationLinks where
  next : Option String := none
deriving DecidableEq

/-- The union of the three pagination response shapes of
src/utils/pagination.util.ts, with every field optional (the source casts
one union value to each shape and reads the fields, absent ones giving
`undefined`).  `links` models the `_links` field. -/
structure PaginationData where
  startAt : Option Int := none
  maxResults : Option Int := none
  total : Option Int := none
  nextPage : Option String := none
  links : Option PaginationLinks := none
  next : Option String := none
deriving DecidableEq

/-- The pagination scheme tag `PaginationType` of the source. -/
inductive PaginationType where
  | offset
  | cursor
  | page
deriving DecidableEq

/-- The result shape of `extractPaginationInfo`. -/
structure PaginationResult where
  nextCursor : Option String := none
  hasMore : Bool
deriving DecidableEq

/-- Modelled from the spec: the PAGE arm parses `next` with the runtime URL
parser (`new URL`) and reads its `page` query parameter, catching parse
failure locally; the parser itself is a platform builtin absent from the
repository.  The model treats a URL as parseable when it carries a scheme
separator `://`, and reads the first `page=` entry of its query string
verbatim (the percent-decoding that `searchParams.get` performs is not
modelled; no claim exercises it).  `none` covers both parse failure and a
missing parameter, which the source treats alike. -/
def pageParamOfUrl (url : String) : Option String :=
  if hasSub [':', '/', '/'] url.data then
    match url.data.dropWhile (fun ch => ch != '?') with
    | '?' :: q =>
      let entries := splitOn '&' (q.takeWhile (fun ch => ch != '#'))
      match entries.filterMap (fun e =>
          if [ 'p', 'a', 'g', 'e', '='].isPrefixOf e then some (e.drop 5)
          else none) with
      | v :: _ => some (String.mk v)
      | [] => none
    | _ => none
  else none

/-- The body of the `try` block of `extractPaginationInfo`: the cursor that
the selected arm computes.  The outer `some` layer is the absence of a
thrown exception; `none` models a throw escaping the arm into the outer
`catch` (only `decodeURIComponent` in the CURSOR arm can throw, the PAGE
arm catches its own URL-parse failure locally). -/
def extractCursorRaw (data : PaginationData) (ptype : PaginationType) :
    Option (Option String) :=
  match ptype with
  | .offset =>
    match data.startAt, data.maxResults, data.total with
    | some s, some m, some t =>
      if s + m < t then some (some (intToStringJs (s + m)))
      else some (if jsTruthyS data.nextPage then data.nextPage else none)
    | _, _, _ => some (if jsTruthyS data.nextPage then data.nextPage else none)
  | .cursor =>
    match data.links with
    | some li =>
      if jsTruthyS li.next then
        match findCursorParam (li.next.getD "").data with
        | some cm => (decodePercent cm).map (fun d => some (String.mk d))
        | none => some none
      else some none
    | none => some none
  | .page =>
    match data.next with
    | some url =>
      if url != "" then
        match pageParamOfUrl url with
        | some p => some (if p != "" then some p else none)
        | none => some none
      else some none
    | none => some none

/-- `extractPaginationInfo` of src/utils/pagination.util.ts: the arm
selected by the scheme computes a cursor, a throw is caught and yields
`\x7b hasMore: false \x7d`, and otherwise the result pairs the cursor with its
truthiness. -/
def extractPaginationInfo (data : PaginationData) (ptype : PaginationType) :
    PaginationResult :=
  match extractCursorRaw data ptype with
  | none => { nextCursor := none, hasMore := false }
  | some nc => { nextCursor := nc, hasMore := jsTruthyS nc }


/-! ## Transport: src/utils/transport.util.ts -/

/-- Lookup in a JavaScript object modelled as an association list:
the first entry with the key. -/
def getH (h : List (String × String)) (k : String) : Option String :=
  (h.find? (fun p => p.1 == k)).map (fun p => p.2)

/-- Assignment in a JavaScript object modelled as an association list:
replace the entry in place when the key exists, append otherwise. -/
def setH (h : List (String × String)) (k v : String) : List (String × String) :=
  if (h.find? (fun p => p.1 == k)).isSome then
    h.map (fun p => if p.1 == k then (k, v) else p)
  else h ++ [(k, v)]

/-- The base headers of `fetchAtlassian`. -/
def jsonHeadersBase : List (String × String) :=
  [("Content-Type", "application/json"), ("Accept", "application/json")]

/-- The standard base64 alphabet. -/
def base64Alphabet : List Char :=
  "ABCDEFGHIJKLMNOPQRSTUVWXYZabcdefghijklmnopqrstuvwxyz0123456789+/".data

/-- One base64 output character. -/
def b64c (n : Nat) : Char :=
  base64Alphabet.getD n '='

/-- Base64 of a byte list, with padding, as `Buffer.toString('base64')`. -/
def base64Encode : List Nat → List Char
  | [] => []
  | [a] => [b64c (a / 4), b64c (a % 4 * 16), '=', '=']
  | [a, b] => [b64c (a / 4), b64c (a % 4 * 16 + b / 16), b64c (b % 16 * 4), '=']
  | a :: b :: c :: rest =>
    b64c (a / 4) :: b64c (a % 4 * 16 + b / 16) :: b64c (b % 16 * 4 + c / 64) ::
      b64c (c % 64) :: base64Encode rest

/-- UTF-8 encoding of one scalar value. -/
def utf8EncodeChar (n : Nat) : List Nat :=
  if n < 128 then [n]
  else if n < 2048 then [192 + n / 64, 128 + n % 64]
  else if n < 65536 then [224 + n / 4096, 128 + n / 64 % 64, 128 + n % 64]
  else [240 + n / 262144, 128 + n / 4096 % 64, 128 + n / 64 % 64, 128 + n % 64]

/-- The UTF-8 bytes of a string, as `Buffer.from(string)`. -/
def utf8Bytes (s : String) : List Nat :=
  (s.data.map (fun c => utf8EncodeChar c.toNat)).flatten

/-- The value `Basic base64(userEmail:apiToken)` built at
src/utils/transport.util.ts line 93. -/
def basicAuthValue (userEmail apiToken : String) : String :=
  "Basic " ++ String.mk (base64Encode (utf8Bytes (userEmail ++ ":" ++ apiToken)))

/-- The `RequestOptions` of src/utils/transport.util.ts, keeping the fields
the claims exercise. -/
structure RequestOptions where
  headers : List (String × String) := []
  cookies : Option String := none
deriving DecidableEq

/-- The header fold of `buildHeaders` for the caller-supplied headers. -/
def spreadHeaders (hs : List (String × String)) (h0 : List (String × String)) :
    List (String × String) :=
  hs.foldl (fun acc kv => setH acc kv.1 kv.2) h0

/-- One cookie-setting step of `fetchAtlassian` (source lines 80 to 89):
set the `Cookie` header when the given optional string is truthy. -/
def applyCookie (v : Option String) (h : List (String × String)) :
    List (String × String) :=
  if jsTruthyS v then setH h "Cookie" (v.getD "") else h

/-- The basic-auth step of `fetchAtlassian` (source lines 91 to 94): add the
`Authorization` header exactly when the headers carry no truthy `Cookie`. -/
def withAuthIfNoCookie (userEmail apiToken : String)
    (h : List (String × String)) : List (String × String) :=
  if jsTruthyS (getH h "Cookie") then h
  else setH h "Authorization" (basicAuthValue userEmail apiToken)

/-- The header assembly of `fetchAtlassian` (src/utils/transport.util.ts
lines 74 to 94): base headers, then the caller headers spread over them,
then the ambient `ATLASSIAN_COOKIE` when truthy, then `options.cookies`
when truthy, and finally the basic-auth `Authorization` header exactly when
the assembled headers carry no truthy `Cookie` entry. -/
def buildHeaders (options : RequestOptions) (cookieEnv : Option String)
    (userEmail apiToken : String) : List (String × String) :=
  withAuthIfNoCookie userEmail apiToken
    (applyCookie options.cookies
      (applyCookie cookieEnv
        (spreadHeaders options.headers jsonHeadersBase)))

/-! ## Error classification of fetchAtlassian

The error constructors live in error.util.ts, which is not among the staged
source files; their kinds are modelled from the taxonomy of the spec
(AuthMissing, AuthInvalid, NotFound, ApiError, NetworkOrParseError,
UnexpectedError).  The dispatch structure — which constructor is invoked
with which arguments, at src/utils/transport.util.ts lines 127 to 213 — is
taken from the source. -/

/-- The classified error taxonomy.  Modelled from the spec: the spec maps
the `createApiError(message, 404, body)` call of the 404 branch to the
NotFound kind carrying the raw body, and the
`createApiError(\x60Network or parsing error: ...\x60, 500, error)` call of the
exception handler to the NetworkOrParseError kind. -/
inductive TransportError where
  | authMissing (message : String)
  | authInvalid (message : String)
  | notFound (body : String)
  | apiError (status : Nat) (body : String) (message : String)
deriving DecidableEq

/-- One entry of the Atlassian list-of-errors body shape; `title` is absent
or falsy when the entry carries no usable title. -/
structure JsErrorEntry where
  title : Option String := none
deriving DecidableEq

/-- The projections of a parsed JSON error body that the source inspects:
`errors` is `some list` exactly when the body has an `errors` field that is
an array, and `message` is the top-level `message` field. -/
structure JsErrorBody where
  errors : Option (List JsErrorEntry) := none
  message : Option String := none
deriving DecidableEq

/-- A non-success HTTP response as the error path of `fetchAtlassian`
observes it: status, status text, the body read as text, and what
`JSON.parse` yields on the body (`none` models the parse throwing). -/
structure HttpErrorResponse where
  status : Nat
  statusText : String
  bodyText : String
  parsed : Option JsErrorBody := none
deriving DecidableEq

/-- The test `errorText && (errorText.startsWith('\x7b') ||
errorText.startsWith('['))` at src/utils/transport.util.ts lines 139 to 142. -/
def bodyLooksJson (r : HttpErrorResponse) : Bool :=
  r.bodyText != "" &&
    (['\x7b'].isPrefixOf r.bodyText.data || ['['].isPrefixOf r.bodyText.data)

/-- The test `parsedError.errors && Array.isArray(parsedError.errors) &&
parsedError.errors.length > 0` at src/utils/transport.util.ts lines 146 to 150. -/
def errorsArrayNonempty (p : JsErrorBody) : Bool :=
  match p.errors with
  | some (_ :: _) => true
  | _ => false

/-- The error-message derivation of src/utils/transport.util.ts lines 135
to 167: the default is `status statusText`; when the body text is truthy
and starts with a brace or bracket it is parsed; a parse throw falls back
to the default; a non-empty `errors` array whose first entry has a truthy
`title` yields that title; otherwise a truthy top-level `message` field is
used when the errors-array test failed; otherwise the default stands. -/
def deriveErrorMessage (r : HttpErrorResponse) : String :=
  let dflt := natToStringJs r.status ++ " " ++ r.statusText
  if bodyLooksJson r then
    match r.parsed with
    | none => dflt
    | some p =>
      match p.errors with
      | some (e :: _) => if jsTruthyS e.title then e.title.getD "" else dflt
      | _ => if jsTruthyS p.message then p.message.getD "" else dflt
  else dflt

/-- The HTTP status classification of src/utils/transport.util.ts lines 169
to 177: 401 and 403 raise the fixed-message invalid-credentials error, 404
raises the not-found error carrying the raw body text, and every other
non-success status raises the API error with the derived message. -/
def classifyHttpError (r : HttpErrorResponse) : TransportError :=
  if r.status == 401 || r.status == 403 then
    TransportError.authInvalid "Invalid Atlassian credentials"
  else if r.status == 404 then
    TransportError.notFound r.bodyText
  else
    TransportError.apiError r.status r.bodyText (deriveErrorMessage r)

/-- What the `catch` block of `fetchAtlassian` can receive: an error that is
already a classified `McpError`, a `TypeError`, a `SyntaxError`, or any
other thrown value (carried here by its message text). -/
inductive JsException where
  | mcp (e : TransportError)
  | typeError (message : String)
  | syntaxError (message : String)
  | otherError (message : String)
deriving DecidableEq

/-- What `fetchAtlassian` throws from its `catch` block. -/
inductive ThrownError where
  | mcp (e : TransportError)
  | networkOrParse (message : String) (cause : JsException)
  | unexpectedError (message : String) (cause : JsException)
deriving DecidableEq

/-- The exception classification of src/utils/transport.util.ts lines 189
to 213: a member of the classified taxonomy is rethrown unchanged; a
`TypeError` or `SyntaxError` becomes the network-or-parse error wrapping
the cause; anything else becomes the unexpected error wrapping the cause. -/
def handleCatch : JsException → ThrownError
  | .mcp e => .mcp e
  | .typeError m =>
    .networkOrParse ("Network or parsing error: " ++ m) (.typeError m)
  | .syntaxError m =>
    .networkOrParse ("Network or parsing error: " ++ m) (.syntaxError m)
  | .otherError m =>
    .unexpectedError ("Unexpected error while calling Atlassian API: " ++ m)
      (.otherError m)


/-! ## Supporting lemmas -/

theorem stringMk_ne_empty {d : List Char} (h : d ≠ []) : String.mk d ≠ "" :=
  fun he => h (congrArg String.data he)

theorem natDigitsRevAux_ne_nil (fuel n : Nat) : natDigitsRevAux fuel n ≠ [] := by
  cases fuel with
  | zero => simp [natDigitsRevAux]
  | succ f =>
    unfold natDigitsRevAux
    split <;> simp

theorem natDigitsRev_ne_nil (n : Nat) : natDigitsRev n ≠ [] :=
  natDigitsRevAux_ne_nil n n

theorem natToStringJs_ne_empty (n : Nat) : natToStringJs n ≠ "" := by
  unfold natToStringJs
  apply stringMk_ne_empty
  simp [natDigitsRev_ne_nil]

theorem intToStringJs_ne_empty (i : Int) : intToStringJs i ≠ "" := by
  unfold intToStringJs
  split
  · intro h
    have h2 := congrArg String.data h
    simp [natToStringJs] at h2
  · exact natToStringJs_ne_empty _

/-- The truthy helper agrees with `Option.isSome` exactly on optional
strings that are never empty when present. -/
theorem jsTruthyS_eq_isSome {o : Option String} (h : ∀ s, o = some s → s ≠ "") :
    jsTruthyS o = o.isSome := by
  cases o with
  | none => rfl
  | some s =>
    simp [jsTruthyS, Option.isSome]
    exact h s rfl

theorem findCursorParam_ne_nil {l c} (h : findCursorParam l = some c) : c ≠ [] := by
  induction l with
  | nil => simp [findCursorParam] at h
  | cons a t ih =>
    simp only [findCursorParam] at h
    split at h
    · split at h
      · exact ih h
      · rename_i hrun
        cases h
        simpa using hrun
    · exact ih h

theorem decodePercentAux_cons_ne_nil {fuel} {a : Char} {t r}
    (h : decodePercentAux fuel (a :: t) = some r) : r ≠ [] := by
  cases fuel with
  | zero => simp [decodePercentAux] at h
  | succ fuel =>
    rw [decodePercentAux.eq_def] at h
    repeat' split at h
    all_goals
      first
      | (obtain ⟨cs, hcs, rfl⟩ := Option.map_eq_some'.mp h; simp)
      | simp_all

theorem decodePercent_cons_ne_nil {a : Char} {t r}
    (h : decodePercent (a :: t) = some r) : r ≠ [] :=
  @decodePercentAux_cons_ne_nil (t.length + 1) a t r
    (by simpa [decodePercent] using h)

/-! ## Claim C9 -/

/-- C9: every exception thrown below the HTTP-status level is classified by
the catch block of `fetchAtlassian` as follows: an error that is already a
classified `McpError` is rethrown unchanged with no double-wrapping, a
`TypeError` or `SyntaxError` becomes the network-or-parse error, and any
other exception becomes the unexpected error wrapping the original cause. -/
theorem handleCatch_classifies (e : JsException) :
    (∀ x, e = JsException.mcp x → handleCatch e = ThrownError.mcp x) ∧
    (∀ m, e = JsException.typeError m →
      handleCatch e = ThrownError.networkOrParse ("Network or parsing error: " ++ m) e) ∧
    (∀ m, e = JsException.syntaxError m →
      handleCatch e = ThrownError.networkOrParse ("Network or parsing error: " ++ m) e) ∧
    (∀ m, e = JsException.otherError m →
      handleCatch e =
        ThrownError.unexpectedError ("Unexpected error while calling Atlassian API: " ++ m) e) := by
  refine ⟨?_, ?_, ?_, ?_⟩ <;> rintro x rfl <;> rfl

/-- Witness for C9 at concrete exceptions of every class. -/
theorem handleCatch_classifies_witness :
    handleCatch (JsException.mcp (TransportError.notFound "body")) =
      ThrownError.mcp (TransportError.notFound "body") ∧
    handleCatch (JsException.typeError "boom") =
      ThrownError.networkOrParse ("Network or parsing error: " ++ "boom")
        (JsException.typeError "boom") ∧
    handleCatch (JsException.otherError "odd") =
      ThrownError.unexpectedError ("Unexpected error while calling Atlassian API: " ++ "odd")
        (JsException.otherError "odd") :=
  ⟨(handleCatch_classifies _).1 _ rfl,
   (handleCatch_classifies _).2.1 _ rfl,
   (handleCatch_classifies _).2.2.2 _ rfl⟩

/-! ## Claim C2 -/

/-- C2, amended: the error kind is determined by status alone — 401 and 403
raise the fixed-message invalid-credentials error ignoring the body, 404
raises the not-found error carrying the raw body, and every other
non-success status raises `ApiError(status, rawBody, derivedMessage)`;
the derived message is the first entry title when the parsed body is a
non-empty list-of-errors shape with a truthy title, the top-level `message`
field only when the errors-array test fails (absent, not an array, or
empty), and otherwise the string `status statusText` (also whenever the
body is not parseable JSON).  In particular a non-empty errors array whose
first entry lacks a title falls back to `status statusText` without
consulting `message`, and the fallback carries the status number, not the
bare status text. -/
theorem classifyHttpError_by_status (r : HttpErrorResponse) :
    (r.status = 401 ∨ r.status = 403 →
      classifyHttpError r = TransportError.authInvalid "Invalid Atlassian credentials") ∧
    (r.status = 404 → classifyHttpError r = TransportError.notFound r.bodyText) ∧
    (r.status ≠ 401 → r.status ≠ 403 → r.status ≠ 404 →
      classifyHttpError r =
        TransportError.apiError r.status r.bodyText (deriveErrorMessage r)) ∧
    (bodyLooksJson r = false →
      deriveErrorMessage r = natToStringJs r.status ++ " " ++ r.statusText) ∧
    (r.parsed = none →
      deriveErrorMessage r = natToStringJs r.status ++ " " ++ r.statusText) ∧
    (∀ p e rest, bodyLooksJson r = true → r.parsed = some p →
      p.errors = some (e :: rest) →
      deriveErrorMessage r =
        (if jsTruthyS e.title then e.title.getD ""
         else natToStringJs r.status ++ " " ++ r.statusText)) ∧
    (∀ p, bodyLooksJson r = true → r.parsed = some p → errorsArrayNonempty p = false →
      deriveErrorMessage r =
        (if jsTruthyS p.message then p.message.getD ""
         else natToStringJs r.status ++ " " ++ r.statusText)) := by
  refine ⟨?_, ?_, ?_, ?_, ?_, ?_, ?_⟩
  · intro h
    unfold classifyHttpError
    rcases h with h | h <;> simp [h]
  · intro h
    unfold classifyHttpError
    simp [h]
  · intro h1 h2 h3
    unfold classifyHttpError
    have b1 : (r.status == 401) = false := by simpa using h1
    have b2 : (r.status == 403) = false := by simpa using h2
    have b3 : (r.status == 404) = false := by simpa using h3
    simp [b1, b2, b3]
  · intro h
    simp [deriveErrorMessage, h]
  · intro h
    cases hb : bodyLooksJson r <;> simp [deriveErrorMessage, h, hb]
  · intro p e rest hb hp he
    simp [deriveErrorMessage, hb, hp, he]
  · intro p hb hp hne
    rcases hp2 : p.errors with _ | l
    · simp [deriveErrorMessage, hb, hp, hp2]
    · cases l with
      | nil => simp [deriveErrorMessage, hb, hp, hp2]
      | cons e rest =>
        rw [errorsArrayNonempty, hp2] at hne
        simp at hne

/-- Counterexample for C2 as stated: a non-JSON error body on status 500
yields the API error whose message is the string `500 Internal Server
Error`, which is not the status text `Internal Server Error`. -/
theorem classifyHttpError_counterexample :
    classifyHttpError
        { status := 500, statusText := "Internal Server Error",
          bodyText := "oops", parsed := none } =
      TransportError.apiError 500 "oops" "500 Internal Server Error" ∧
    ("500 Internal Server Error" : String) ≠ "Internal Server Error" := by
  constructor
  · decide
  · decide

/-- Witness for C2 at concrete responses of every status class. -/
theorem classifyHttpError_by_status_witness :
    classifyHttpError
        { status := 401, statusText := "Unauthorized", bodyText := "b", parsed := none } =
      TransportError.authInvalid "Invalid Atlassian credentials" ∧
    classifyHttpError
        { status := 404, statusText := "Not Found", bodyText := "missing", parsed := none } =
      TransportError.notFound "missing" ∧
    deriveErrorMessage
        { status := 400, statusText := "Bad Request",
          bodyText := "x", parsed := some { errors := some [{ title := some "T" }] } } =
      natToStringJs 400 ++ " " ++ "Bad Request" :=
  ⟨(classifyHttpError_by_status _).1 (Or.inl rfl),
   (classifyHttpError_by_status _).2.1 rfl,
   (classifyHttpError_by_status _).2.2.2.1 (by decide)⟩

/-! ## Header-assembly lemmas -/

theorem getH_cons_of_pos {q : String × String} {t : List (String × String)} {k : String}
    (h : (q.1 == k) = true) : getH (q :: t) k = some q.2 := by
  simp [getH, List.find?_cons, h]

theorem getH_cons_of_neg {q : String × String} {t : List (String × String)} {k : String}
    (h : (q.1 == k) = false) : getH (q :: t) k = getH t k := by
  simp [getH, List.find?_cons, h]

theorem getH_cons_none {q : String × String} {t : List (String × String)} {k : String}
    (h : getH (q :: t) k = none) : (q.1 == k) = false ∧ getH t k = none := by
  by_cases hq : (q.1 == k) = true
  · rw [getH_cons_of_pos hq] at h
    simp at h
  · have hq2 : (q.1 == k) = false := by simpa using hq
    rw [getH_cons_of_neg hq2] at h
    exact ⟨hq2, h⟩

theorem find?_map_set {h : List (String × String)} {k v : String}
    (hs : (h.find? (fun p => p.1 == k)).isSome = true) :
    (h.map (fun p => if p.1 == k then (k, v) else p)).find? (fun p => p.1 == k) =
      some (k, v) := by
  induction h with
  | nil => simp at hs
  | cons q t ih =>
    by_cases hq : (q.1 == k) = true
    · simp only [List.map_cons, hq, if_true]
      simp [List.find?_cons]
    · have hq2 : (q.1 == k) = false := by simpa using hq
      simp only [List.map_cons, hq2, Bool.false_eq_true, if_false]
      rw [List.find?_cons_of_neg _ (by simp [hq2])]
      apply ih
      rw [List.find?_cons_of_neg _ (by simp [hq2])] at hs
      exact hs

theorem find?_map_set_ne {h : List (String × String)} {k v k' : String}
    (hne : k' ≠ k) :
    (h.map (fun p => if p.1 == k then (k, v) else p)).find? (fun p => p.1 == k') =
      h.find? (fun p => p.1 == k') := by
  induction h with
  | nil => rfl
  | cons q t ih =>
    simp only [List.map_cons, List.find?_cons]
    by_cases hq : (q.1 == k) = true
    · have hqk : q.1 = k := by simpa using hq
      have h1 : ((k : String) == k') = false := by
        simp
        exact fun he => hne he.symm
      have h2 : (q.1 == k') = false := by rw [hqk]; exact h1
      rw [if_pos hq]
      simp only [h1, h2]
      exact ih
    · rw [if_neg hq]
      cases hq' : (q.1 == k') <;> simp only [hq'] <;> first | rfl | exact ih

theorem getH_setH_self (h : List (String × String)) (k v : String) :
    getH (setH h k v) k = some v := by
  unfold setH
  split
  · rename_i hs
    unfold getH
    rw [find?_map_set hs]
    rfl
  · rename_i hs
    have hnone : h.find? (fun p => p.1 == k) = none := by
      cases hfind : h.find? (fun p => p.1 == k)
      · rfl
      · rw [hfind] at hs
        simp at hs
    unfold getH
    rw [List.find?_append, hnone]
    simp

theorem getH_setH_ne {h : List (String × String)} {k v k' : String} (hne : k' ≠ k) :
    getH (setH h k v) k' = getH h k' := by
  unfold setH
  split
  · unfold getH
    rw [find?_map_set_ne hne]
  · unfold getH
    rw [List.find?_append]
    have hlast : List.find? (fun p => p.1 == k') [(k, v)] = none := by
      simp
      exact fun he => hne he.symm
    rw [hlast]
    cases h.find? (fun p => p.1 == k') <;> rfl

theorem getH_spread_of_none {hs : List (String × String)} {k : String}
    (hk : getH hs k = none) (h0 : List (String × String)) :
    getH (spreadHeaders hs h0) k = getH h0 k := by
  induction hs generalizing h0 with
  | nil => rfl
  | cons q t ih =>
    obtain ⟨hq, ht⟩ := getH_cons_none hk
    show getH (spreadHeaders t (setH h0 q.1 q.2)) k = getH h0 k
    rw [ih ht, getH_setH_ne (fun he => by simp [he] at hq)]

theorem getH_eq_none_of_not_mem {h : List (String × String)} {k : String}
    (hm : k ∉ h.map Prod.fst) : getH h k = none := by
  induction h with
  | nil => rfl
  | cons q t ih =>
    simp only [List.map_cons, List.mem_cons] at hm
    push_neg at hm
    rw [getH_cons_of_neg (by simp; exact fun he => hm.1 he.symm)]
    exact ih hm.2

theorem getH_spread_of_some {hs : List (String × String)} {k v : String}
    (hnd : (hs.map Prod.fst).Nodup) (hk : getH hs k = some v)
    (h0 : List (String × String)) :
    getH (spreadHeaders hs h0) k = some v := by
  induction hs generalizing h0 with
  | nil => simp [getH] at hk
  | cons q t ih =>
    simp only [List.map_cons, List.nodup_cons] at hnd
    by_cases hq : (q.1 == k) = true
    · have hqk : q.1 = k := by simpa using hq
      rw [getH_cons_of_pos hq] at hk
      cases hk
      have htn : getH t k = none := by
        apply getH_eq_none_of_not_mem
        rw [← hqk]
        exact hnd.1
      show getH (spreadHeaders t (setH h0 q.1 q.2)) k = some q.2
      rw [getH_spread_of_none htn, hqk, getH_setH_self]
    · have hq2 : (q.1 == k) = false := by simpa using hq
      rw [getH_cons_of_neg hq2] at hk
      show getH (spreadHeaders t (setH h0 q.1 q.2)) k = some v
      exact ih hnd.2 hk _


theorem jsTruthyS_true_iff {o : Option String} :
    jsTruthyS o = true ↔ ∃ s, o = some s ∧ s ≠ "" := by
  cases o <;> simp [jsTruthyS]

theorem getH_applyCookie_truthy {v : Option String} (h : List (String × String))
    (hv : jsTruthyS v = true) : getH (applyCookie v h) "Cookie" = v := by
  obtain ⟨e, he, hne⟩ := jsTruthyS_true_iff.mp hv
  unfold applyCookie
  rw [if_pos hv, he, Option.getD_some, getH_setH_self]

theorem applyCookie_falsy {v : Option String} (h : List (String × String))
    (hv : jsTruthyS v = false) : applyCookie v h = h := by
  unfold applyCookie
  rw [hv]
  simp

theorem getH_applyCookie_ne {v : Option String} {h : List (String × String)}
    {k : String} (hk : k ≠ "Cookie") : getH (applyCookie v h) k = getH h k := by
  unfold applyCookie
  split
  · exact getH_setH_ne hk
  · rfl

theorem withAuth_of_truthy {userEmail apiToken : String}
    {h : List (String × String)} (ht : jsTruthyS (getH h "Cookie") = true) :
    withAuthIfNoCookie userEmail apiToken h = h := by
  unfold withAuthIfNoCookie
  rw [ht]
  simp

theorem withAuth_of_falsy {userEmail apiToken : String}
    {h : List (String × String)} (ht : jsTruthyS (getH h "Cookie") = false) :
    withAuthIfNoCookie userEmail apiToken h =
      setH h "Authorization" (basicAuthValue userEmail apiToken) := by
  unfold withAuthIfNoCookie
  rw [ht]
  simp

/-! ## Claims C3 and C10 -/

/-- C3, amended: provided the caller did not itself smuggle a `Cookie` or
`Authorization` entry through `options.headers`, authentication is mutually
exclusive and chosen in priority order — the truthy per-call cookie
override first, else the truthy ambient configuration cookie, else basic
auth computed as base64 of `userEmail:apiToken` — and whenever either
cookie source is truthy the dispatched headers carry that `Cookie` and no
`Authorization` header.  (Presence of a cookie source is JavaScript
truthiness: a present-but-empty string is ignored by the source.) -/
theorem buildHeaders_auth_selection (options : RequestOptions)
    (cookieEnv : Option String) (userEmail apiToken : String)
    (hck : getH options.headers "Cookie" = none)
    (hau : getH options.headers "Authorization" = none) :
    (jsTruthyS options.cookies = true →
      getH (buildHeaders options cookieEnv userEmail apiToken) "Cookie" =
        options.cookies ∧
      getH (buildHeaders options cookieEnv userEmail apiToken) "Authorization" =
        none) ∧
    (jsTruthyS options.cookies = false → jsTruthyS cookieEnv = true →
      getH (buildHeaders options cookieEnv userEmail apiToken) "Cookie" =
        cookieEnv ∧
      getH (buildHeaders options cookieEnv userEmail apiToken) "Authorization" =
        none) ∧
    (jsTruthyS options.cookies = false → jsTruthyS cookieEnv = false →
      getH (buildHeaders options cookieEnv userEmail apiToken) "Cookie" = none ∧
      getH (buildHeaders options cookieEnv userEmail apiToken) "Authorization" =
        some (basicAuthValue userEmail apiToken)) := by
  have hne1 : ("Authorization" : String) ≠ "Cookie" := by decide
  have h1au : getH (spreadHeaders options.headers jsonHeadersBase) "Authorization" = none := by
    rw [getH_spread_of_none hau]
    decide
  have h1ck : getH (spreadHeaders options.headers jsonHeadersBase) "Cookie" = none := by
    rw [getH_spread_of_none hck]
    decide
  refine ⟨?_, ?_, ?_⟩
  · intro hc
    have hcv : getH (applyCookie options.cookies
        (applyCookie cookieEnv (spreadHeaders options.headers jsonHeadersBase)))
        "Cookie" = options.cookies := getH_applyCookie_truthy _ hc
    have ht : jsTruthyS (getH (applyCookie options.cookies
        (applyCookie cookieEnv (spreadHeaders options.headers jsonHeadersBase)))
        "Cookie") = true := by rw [hcv]; exact hc
    unfold buildHeaders
    rw [withAuth_of_truthy ht]
    refine ⟨hcv, ?_⟩
    rw [getH_applyCookie_ne hne1, getH_applyCookie_ne hne1, h1au]
  · intro hc he
    have hstep : applyCookie options.cookies
        (applyCookie cookieEnv (spreadHeaders options.headers jsonHeadersBase)) =
        applyCookie cookieEnv (spreadHeaders options.headers jsonHeadersBase) :=
      applyCookie_falsy _ hc
    have hcv : getH (applyCookie cookieEnv
        (spreadHeaders options.headers jsonHeadersBase)) "Cookie" = cookieEnv :=
      getH_applyCookie_truthy _ he
    have ht : jsTruthyS (getH (applyCookie options.cookies
        (applyCookie cookieEnv (spreadHeaders options.headers jsonHeadersBase)))
        "Cookie") = true := by rw [hstep, hcv]; exact he
    unfold buildHeaders
    rw [withAuth_of_truthy ht, hstep]
    refine ⟨hcv, ?_⟩
    rw [getH_applyCookie_ne hne1, h1au]
  · intro hc he
    have hstep : applyCookie options.cookies
        (applyCookie cookieEnv (spreadHeaders options.headers jsonHeadersBase)) =
        spreadHeaders options.headers jsonHeadersBase := by
      rw [applyCookie_falsy _ hc, applyCookie_falsy _ he]
    have ht : jsTruthyS (getH (applyCookie options.cookies
        (applyCookie cookieEnv (spreadHeaders options.headers jsonHeadersBase)))
        "Cookie") = false := by rw [hstep, h1ck]; rfl
    unfold buildHeaders
    rw [withAuth_of_falsy ht, hstep]
    constructor
    · rw [getH_setH_ne (by decide), h1ck]
    · exact getH_setH_self _ _ _

/-- Counterexample for C3 as stated: with a per-call cookie override present
and an `Authorization` entry supplied through `options.headers`, the
dispatched headers carry both a `Cookie` and an `Authorization` header, so
a present cookie source does not exclude an `Authorization` header. -/
theorem buildHeaders_counterexample :
    getH (buildHeaders
        { headers := [("Authorization", "Bearer abc")], cookies := some "SESSION=x" }
        none "u@example.com" "token") "Cookie" = some "SESSION=x" ∧
    getH (buildHeaders
        { headers := [("Authorization", "Bearer abc")], cookies := some "SESSION=x" }
        none "u@example.com" "token") "Authorization" = some "Bearer abc" := by
  constructor <;> decide

/-- Witness for C3 at a concrete call of each authentication class. -/
theorem buildHeaders_auth_selection_witness :
    getH (buildHeaders { cookies := some "S=1" } (some "A=2") "u@e.com" "tok")
      "Cookie" = some "S=1" ∧
    getH (buildHeaders { cookies := some "S=1" } (some "A=2") "u@e.com" "tok")
      "Authorization" = none ∧
    getH (buildHeaders {} (some "A=2") "u@e.com" "tok") "Cookie" = some "A=2" ∧
    getH (buildHeaders {} none "u@e.com" "tok") "Authorization" =
      some (basicAuthValue "u@e.com" "tok") := by
  refine ⟨?_, ?_, ?_, ?_⟩
  · exact ((buildHeaders_auth_selection { cookies := some "S=1" } (some "A=2")
      "u@e.com" "tok" (by decide) (by decide)).1 (by decide)).1
  · exact ((buildHeaders_auth_selection { cookies := some "S=1" } (some "A=2")
      "u@e.com" "tok" (by decide) (by decide)).1 (by decide)).2
  · exact ((buildHeaders_auth_selection {} (some "A=2")
      "u@e.com" "tok" (by decide) (by decide)).2.1 (by decide) (by decide)).1
  · exact ((buildHeaders_auth_selection {} none
      "u@e.com" "tok" (by decide) (by decide)).2.2 (by decide) (by decide)).2

/-- C10: when the ambient configuration cookie is truthy it overwrites any
`Cookie` entry the caller supplied through `options.headers` (caller
headers do not win for the `Cookie` key, though they do win for
`Content-Type` and `Accept`); only a truthy per-call `options.cookies`
takes precedence over the ambient cookie. -/
theorem buildHeaders_ambient_cookie_wins (options : RequestOptions)
    (cookieEnv : Option String) (userEmail apiToken : String)
    (hnd : (options.headers.map Prod.fst).Nodup)
    (henv : jsTruthyS cookieEnv = true) :
    (jsTruthyS options.cookies = false →
      getH (buildHeaders options cookieEnv userEmail apiToken) "Cookie" =
        cookieEnv) ∧
    (∀ c, options.cookies = some c → c ≠ "" →
      getH (buildHeaders options cookieEnv userEmail apiToken) "Cookie" = some c) ∧
    (∀ v, getH options.headers "Content-Type" = some v →
      getH (buildHeaders options cookieEnv userEmail apiToken) "Content-Type" =
        some v) ∧
    (∀ v, getH options.headers "Accept" = some v →
      getH (buildHeaders options cookieEnv userEmail apiToken) "Accept" = some v) := by
  have hne1 : ("Authorization" : String) ≠ "Cookie" := by decide
  refine ⟨?_, ?_, ?_, ?_⟩
  · intro hc
    have hstep : applyCookie options.cookies
        (applyCookie cookieEnv (spreadHeaders options.headers jsonHeadersBase)) =
        applyCookie cookieEnv (spreadHeaders options.headers jsonHeadersBase) :=
      applyCookie_falsy _ hc
    have hcv : getH (applyCookie cookieEnv
        (spreadHeaders options.headers jsonHeadersBase)) "Cookie" = cookieEnv :=
      getH_applyCookie_truthy _ henv
    have ht : jsTruthyS (getH (applyCookie options.cookies
        (applyCookie cookieEnv (spreadHeaders options.headers jsonHeadersBase)))
        "Cookie") = true := by rw [hstep, hcv]; exact henv
    unfold buildHeaders
    rw [withAuth_of_truthy ht, hstep, hcv]
  · intro c hcs hcne
    have hc : jsTruthyS options.cookies = true := jsTruthyS_true_iff.mpr ⟨c, hcs, hcne⟩
    have hcv : getH (applyCookie options.cookies
        (applyCookie cookieEnv (spreadHeaders options.headers jsonHeadersBase)))
        "Cookie" = options.cookies := getH_applyCookie_truthy _ hc
    have ht : jsTruthyS (getH (applyCookie options.cookies
        (applyCookie cookieEnv (spreadHeaders options.headers jsonHeadersBase)))
        "Cookie") = true := by rw [hcv]; exact hc
    unfold buildHeaders
    rw [withAuth_of_truthy ht, hcv, hcs]
  · intro v hv
    have hCT : ("Content-Type" : String) ≠ "Cookie" := by decide
    have hAU : ("Content-Type" : String) ≠ "Authorization" := by decide
    have h1 : getH (spreadHeaders options.headers jsonHeadersBase) "Content-Type" =
        some v := getH_spread_of_some hnd hv _
    have hchain : getH (applyCookie options.cookies
        (applyCookie cookieEnv (spreadHeaders options.headers jsonHeadersBase)))
        "Content-Type" = some v := by
      rw [getH_applyCookie_ne hCT, getH_applyCookie_ne hCT, h1]
    unfold buildHeaders withAuthIfNoCookie
    split
    · exact hchain
    · rw [getH_setH_ne hAU]
      exact hchain
  · intro v hv
    have hCT : ("Accept" : String) ≠ "Cookie" := by decide
    have hAU : ("Accept" : String) ≠ "Authorization" := by decide
    have h1 : getH (spreadHeaders options.headers jsonHeadersBase) "Accept" =
        some v := getH_spread_of_some hnd hv _
    have hchain : getH (applyCookie options.cookies
        (applyCookie cookieEnv (spreadHeaders options.headers jsonHeadersBase)))
        "Accept" = some v := by
      rw [getH_applyCookie_ne hCT, getH_applyCookie_ne hCT, h1]
    unfold buildHeaders withAuthIfNoCookie
    split
    · exact hchain
    · rw [getH_setH_ne hAU]
      exact hchain

/-- Witness for C10: the ambient cookie displaces a caller-supplied
`Cookie` header while the caller-supplied `Content-Type` survives. -/
theorem buildHeaders_ambient_cookie_wins_witness :
    getH (buildHeaders { headers := [("Cookie", "CALLER=1"), ("Content-Type", "text/plain")] }
        (some "AMBIENT=2") "u@e.com" "tok") "Cookie" = some "AMBIENT=2" ∧
    getH (buildHeaders { headers := [("Cookie", "CALLER=1"), ("Content-Type", "text/plain")] }
        (some "AMBIENT=2") "u@e.com" "tok") "Content-Type" = some "text/plain" := by
  constructor
  · exact (buildHeaders_ambient_cookie_wins
      { headers := [("Cookie", "CALLER=1"), ("Content-Type", "text/plain")] }
      (some "AMBIENT=2") "u@e.com" "tok" (by decide) (by decide)).1 (by decide)
  · exact (buildHeaders_ambient_cookie_wins
      { headers := [("Cookie", "CALLER=1"), ("Content-Type", "text/plain")] }
      (some "AMBIENT=2") "u@e.com" "tok" (by decide) (by decide)).2.2.1
      "text/plain" (by decide)

/-! ## Claims C4, C7, C8 -/

theorem nextPageArm_ne_empty {o : Option String} {s : String}
    (h : (if jsTruthyS o then o else none) = some s) : s ≠ "" := by
  split at h
  · rename_i ht
    subst h
    simpa [jsTruthyS] using ht
  · simp at h

/-- Whenever the try-block of `extractPaginationInfo` computes a cursor, the
cursor string is non-empty (so its JavaScript truthiness agrees with its
presence). -/
theorem extractCursorRaw_some_ne_empty {data : PaginationData}
    {ptype : PaginationType} {s : String}
    (h : extractCursorRaw data ptype = some (some s)) : s ≠ "" := by
  unfold extractCursorRaw at h
  cases ptype with
  | offset =>
    rcases hA : data.startAt with _ | sa <;> rcases hB : data.maxResults with _ | mb <;>
      rcases hC : data.total with _ | tc <;> simp only [hA, hB, hC] at h
    all_goals
      first
      | (injection h with h2; exact nextPageArm_ne_empty h2)
      | (split at h
         · injection h with h2
           injection h2 with h3
           subst h3
           exact intToStringJs_ne_empty _
         · injection h with h2
           exact nextPageArm_ne_empty h2)
  | cursor =>
    rcases hL : data.links with _ | li <;> simp only [hL] at h
    · simp at h
    · split at h
      · split at h
        · rename_i cm hfind
          obtain ⟨d, hd, hs⟩ := Option.map_eq_some'.mp h
          injection hs with hs2
          subst hs2
          have hcm : cm ≠ [] := findCursorParam_ne_nil hfind
          rcases cm with _ | ⟨a, t⟩
          · exact absurd rfl hcm
          · exact stringMk_ne_empty (decodePercent_cons_ne_nil hd)
        · simp at h
      · simp at h
  | page =>
    rcases hN : data.next with _ | url <;> simp only [hN] at h
    · simp at h
    · split at h
      · split at h
        · rename_i p hp
          injection h with h2
          split at h2
          · rename_i hpne
            injection h2 with h3
            subst h3
            simpa using hpne
          · simp at h2
        · simp at h
      · simp at h

/-- C4: for every pagination scheme and every response value the extractor
returns a total result — a throw inside the try block degrades to
`\x7b hasMore := false \x7d` rather than propagating — and `hasMore` is true
exactly when `nextCursor` is present. -/
theorem extractPaginationInfo_total (data : PaginationData) (ptype : PaginationType) :
    ((extractPaginationInfo data ptype).hasMore =
      (extractPaginationInfo data ptype).nextCursor.isSome) ∧
    (extractCursorRaw data ptype = none →
      extractPaginationInfo data ptype = { nextCursor := none, hasMore := false }) := by
  constructor
  · unfold extractPaginationInfo
    cases hr : extractCursorRaw data ptype with
    | none => rfl
    | some nc =>
      cases nc with
      | none => rfl
      | some s =>
        have hs := extractCursorRaw_some_ne_empty hr
        simp [jsTruthyS, hs]
  · intro h
    unfold extractPaginationInfo
    rw [h]

/-- Witness for C4: a next link whose cursor parameter carries a malformed
percent escape makes the decode throw, and the extractor degrades to no
more pages. -/
theorem extractPaginationInfo_total_witness :
    extractCursorRaw { links := some { next := some "https://s/api?cursor=%ZZ" } }
      PaginationType.cursor = none ∧
    extractPaginationInfo { links := some { next := some "https://s/api?cursor=%ZZ" } }
      PaginationType.cursor = { nextCursor := none, hasMore := false } :=
  ⟨by decide,
   (extractPaginationInfo_total _ _).2 (by decide)⟩

/-- The test of the OFFSET arm: all three numeric fields present and
`startAt + maxResults < total`. -/
def offsetAdvances (data : PaginationData) : Bool :=
  match data.startAt, data.maxResults, data.total with
  | some s, some m, some t => decide (s + m < t)
  | _, _, _ => false

/-- C7: under the OFFSET scheme, when `startAt`, `maxResults` and `total`
are all present and `startAt + maxResults < total` the next cursor is the
string form of `startAt + maxResults` with `hasMore` true; otherwise a
truthy `nextPage` is used verbatim as the cursor; otherwise there are no
more pages.  (Presence of `nextPage` is JavaScript truthiness: the source
ignores a present-but-empty `nextPage`.) -/
theorem extractPaginationInfo_offset_spec (data : PaginationData) :
    (∀ s m t, data.startAt = some s → data.maxResults = some m →
      data.total = some t → s + m < t →
      extractPaginationInfo data PaginationType.offset =
        { nextCursor := some (intToStringJs (s + m)), hasMore := true }) ∧
    (offsetAdvances data = false → jsTruthyS data.nextPage = true →
      extractPaginationInfo data PaginationType.offset =
        { nextCursor := data.nextPage, hasMore := true }) ∧
    (offsetAdvances data = false → jsTruthyS data.nextPage = false →
      extractPaginationInfo data PaginationType.offset =
        { nextCursor := none, hasMore := false }) := by
  refine ⟨?_, ?_, ?_⟩
  · intro s m t hs hm ht hlt
    unfold extractPaginationInfo extractCursorRaw
    simp only [hs, hm, ht]
    rw [if_pos hlt]
    have htruthy : jsTruthyS (some (intToStringJs (s + m))) = true := by
      simp only [jsTruthyS, bne_iff_ne, ne_eq]
      simp [intToStringJs_ne_empty]
    simp [htruthy]
  · intro hadv htr
    unfold extractPaginationInfo extractCursorRaw
    unfold offsetAdvances at hadv
    rcases hA : data.startAt with _ | sa <;> rcases hB : data.maxResults with _ | mb <;>
      rcases hC : data.total with _ | tc <;> simp only [hA, hB, hC] at hadv ⊢ <;>
      simp only [htr, if_true] <;>
      first
      | simp [htr]
      | (rw [if_neg (by simpa using hadv)]
         simp [htr])
  · intro hadv htr
    unfold extractPaginationInfo extractCursorRaw
    unfold offsetAdvances at hadv
    rcases hA : data.startAt with _ | sa <;> rcases hB : data.maxResults with _ | mb <;>
      rcases hC : data.total with _ | tc <;> simp only [hA, hB, hC] at hadv ⊢ <;>
      simp only [htr, Bool.false_eq_true, if_false] <;>
      first
      | (rw [if_neg (by simpa using hadv)]
         simp [jsTruthyS])
      | simp [jsTruthyS]

/-- Witness for C7 at the two concrete offset responses of the claim. -/
theorem extractPaginationInfo_offset_spec_witness :
    extractPaginationInfo { startAt := some 0, maxResults := some 25, total := some 100 }
      PaginationType.offset = { nextCursor := some "25", hasMore := true } ∧
    extractPaginationInfo { startAt := some 75, maxResults := some 25, total := some 100 }
      PaginationType.offset = { nextCursor := none, hasMore := false } := by
  constructor
  · have h := (extractPaginationInfo_offset_spec
      { startAt := some 0, maxResults := some 25, total := some 100 }).1
      0 25 100 rfl rfl rfl (by decide)
    rw [h]
    have : intToStringJs (0 + 25) = "25" := by decide
    rw [this]
  · exact (extractPaginationInfo_offset_spec
      { startAt := some 75, maxResults := some 25, total := some 100 }).2.2
      (by decide) (by decide)

/-- C8: under the CURSOR scheme, a present truthy next link whose text
carries a `cursor` query parameter yields that parameter percent-decoded as
the next cursor with `hasMore` true; absence of the link, a falsy link, or
absence of the parameter means no more pages. -/
theorem extractPaginationInfo_cursor_spec (data : PaginationData) :
    (∀ url cm d, data.links = some { next := some url } → url ≠ "" →
      findCursorParam url.data = some cm → decodePercent cm = some d →
      extractPaginationInfo data PaginationType.cursor =
        { nextCursor := some (String.mk d), hasMore := true }) ∧
    (data.links = none →
      extractPaginationInfo data PaginationType.cursor =
        { nextCursor := none, hasMore := false }) ∧
    (∀ li, data.links = some li → jsTruthyS li.next = false →
      extractPaginationInfo data PaginationType.cursor =
        { nextCursor := none, hasMore := false }) ∧
    (∀ url, data.links = some { next := some url } → url ≠ "" →
      findCursorParam url.data = none →
      extractPaginationInfo data PaginationType.cursor =
        { nextCursor := none, hasMore := false }) := by
  refine ⟨?_, ?_, ?_, ?_⟩
  · intro url cm d hL hne hfind hdec
    unfold extractPaginationInfo extractCursorRaw
    rw [hL]
    have htr : jsTruthyS (some url) = true := by simpa [jsTruthyS] using hne
    simp only [htr, if_true, Option.getD_some]
    simp only [hfind]
    simp only [hdec, Option.map_some']
    have hd : String.mk d ≠ "" := by
      have hcm : cm ≠ [] := findCursorParam_ne_nil hfind
      rcases cm with _ | ⟨a, t⟩
      · exact absurd rfl hcm
      · exact stringMk_ne_empty (decodePercent_cons_ne_nil hdec)
    simp [jsTruthyS, hd]
  · intro hL
    unfold extractPaginationInfo extractCursorRaw
    rw [hL]
    rfl
  · intro li hL htr
    unfold extractPaginationInfo extractCursorRaw
    rw [hL]
    simp only [htr, Bool.false_eq_true, if_false]
    rfl
  · intro url hL hne hfind
    unfold extractPaginationInfo extractCursorRaw
    rw [hL]
    have htr : jsTruthyS (some url) = true := by simpa [jsTruthyS] using hne
    simp only [htr, if_true, Option.getD_some]
    rw [hfind]
    rfl

/-- Witness for C8: a next link containing `cursor=abc%3D` yields the
decoded cursor `abc=` with more pages. -/
theorem extractPaginationInfo_cursor_spec_witness :
    extractPaginationInfo { links := some { next := some "https://s/api?cursor=abc%3D" } }
      PaginationType.cursor = { nextCursor := some "abc=", hasMore := true } := by
  have h := (extractPaginationInfo_cursor_spec
    { links := some { next := some "https://s/api?cursor=abc%3D" } }).1
    "https://s/api?cursor=abc%3D" "abc%3D".data "abc=".data rfl (by decide)
    (by decide) (by decide)
  rw [h]


/-! ## Character-class and matcher lemmas for processCqlQuery -/

theorem word_not_space {c : Char} (h : isWordChar c = true) : isSpaceJS c = false := by
  by_contra hs
  simp only [Bool.not_eq_false, isSpaceJS, Bool.or_eq_true, beq_iff_eq, or_assoc] at hs
  rcases hs with rfl | rfl | rfl | rfl | rfl | rfl | rfl | rfl | rfl | rfl | rfl | rfl |
    rfl | rfl | rfl | rfl | rfl | rfl | rfl | rfl | rfl | rfl | rfl | rfl | rfl <;>
    exact absurd h (by decide)

theorem word_ne_eq {c : Char} (h : isWordChar c = true) : c ≠ '=' := by
  rintro rfl
  exact absurd h (by decide)

theorem word_ne_quote {c : Char} (h : isWordChar c = true) : c ≠ '"' := by
  rintro rfl
  exact absurd h (by decide)

theorem takeWhile_all {p : Char → Bool} {l : List Char} (h : ∀ c ∈ l, p c = true) :
    l.takeWhile p = l := by
  induction l with
  | nil => rfl
  | cons c t ih =>
    rw [List.takeWhile_cons_of_pos (h c (by simp))]
    rw [ih (fun d hd => h d (by simp [hd]))]

theorem dropWhile_all {p : Char → Bool} {l : List Char} (h : ∀ c ∈ l, p c = true) :
    l.dropWhile p = [] := by
  induction l with
  | nil => rfl
  | cons c t ih =>
    rw [List.dropWhile_cons_of_pos (h c (by simp))]
    exact ih (fun d hd => h d (by simp [hd]))

theorem takeWhile_nil_of_head {p : Char → Bool} {c : Char} {t : List Char}
    (h : p c = false) : (c :: t).takeWhile p = [] := by
  simp [List.takeWhile_cons, h]

theorem dropWhile_cons_of_head {p : Char → Bool} {c : Char} {t : List Char}
    (h : p c = false) : (c :: t).dropWhile p = c :: t := by
  simp [List.dropWhile_cons, h]

theorem stripSpaceLit_eq_some {m t : List Char} (h : stripSpaceLit m = some t) :
    m = 's' :: 'p' :: 'a' :: 'c' :: 'e' :: t := by
  unfold stripSpaceLit at h
  split at h
  · injection h with h2
    subst h2
    rfl
  · simp at h

theorem stripSpaceLit_none_of_head {c : Char} {t : List Char} (h : c ≠ 's') :
    stripSpaceLit (c :: t) = none := by
  unfold stripSpaceLit
  split
  · rename_i heq
    injection heq with h1 _
    exact absurd h1 h
  · rfl

theorem matchAfterKey_none_of_head {d : Char} {l : List Char}
    (h1 : isSpaceJS d = false) (h2 : d ≠ '=') :
    matchAfterKey (d :: l) = none := by
  unfold matchAfterKey
  rw [dropWhile_cons_of_head h1]
  split
  · rename_i heq
    injection heq with h3 _
    exact absurd h3 h2
  · rfl

theorem matchValue_some_inv {l v rest : List Char}
    (h : matchValue l = some (v, rest)) :
    l = v ++ rest ∧ v ≠ [] ∧ (∀ c ∈ v, isWordChar c = true) := by
  have hsplit := List.takeWhile_append_dropWhile (p := isWordChar) (l := l)
  have hwords : ∀ c ∈ l.takeWhile isWordChar, isWordChar c = true :=
    fun c hc => List.mem_takeWhile_imp hc
  simp only [matchValue] at h
  split at h
  · simp at h
  · rename_i c heq
    split at h
    · simp at h
    · cases h
      rw [heq] at hsplit hwords
      exact ⟨hsplit.symm, by simp, hwords⟩
  · rename_i c1 c2 rs heq
    rw [heq] at hsplit hwords
    split at h <;> cases h
    · have hne : (c1 :: c2 :: rs) ≠ [] := by simp
      have hrun : (c1 :: c2 :: rs).dropLast ++ [(c1 :: c2 :: rs).getLastD 'x'] =
          c1 :: c2 :: rs := by
        rw [List.getLastD_eq_getLast?, List.getLast?_eq_getLast _ hne]
        simp only [Option.getD_some]
        exact List.dropLast_append_getLast hne
      refine ⟨?_, by simp, ?_⟩
      · calc l = (c1 :: c2 :: rs) ++ List.dropWhile isWordChar l := hsplit.symm
          _ = ((c1 :: c2 :: rs).dropLast ++ [(c1 :: c2 :: rs).getLastD 'x']) ++
              List.dropWhile isWordChar l := by rw [hrun]
          _ = (c1 :: c2 :: rs).dropLast ++ (c1 :: c2 :: rs).getLastD 'x' ::
              List.dropWhile isWordChar l := by simp
      · intro c hc
        exact hwords c ((List.dropLast_sublist (c1 :: c2 :: rs)).subset hc)
    · exact ⟨hsplit.symm, by simp, hwords⟩

theorem matchAfterKey_some_inv {l w1 w2 v rest : List Char}
    (h : matchAfterKey l = some (w1, w2, v, rest)) :
    l = w1 ++ '=' :: w2 ++ v ++ rest ∧
    (∀ c ∈ w1, isSpaceJS c = true) ∧ (∀ c ∈ w2, isSpaceJS c = true) ∧
    v ≠ [] ∧ (∀ c ∈ v, isWordChar c = true) := by
  have hsplit1 := List.takeWhile_append_dropWhile (p := isSpaceJS) (l := l)
  have hsp1 : ∀ c ∈ l.takeWhile isSpaceJS, isSpaceJS c = true :=
    fun c hc => List.mem_takeWhile_imp hc
  unfold matchAfterKey at h
  split at h
  · rename_i l2 heq
    have hsplit2 := List.takeWhile_append_dropWhile (p := isSpaceJS) (l := l2)
    have hsp2 : ∀ c ∈ l2.takeWhile isSpaceJS, isSpaceJS c = true :=
      fun c hc => List.mem_takeWhile_imp hc
    split at h
    · rename_i v0 rest0 hmv
      cases h
      obtain ⟨he, hvne, hvw⟩ := matchValue_some_inv hmv
      refine ⟨?_, hsp1, hsp2, hvne, hvw⟩
      calc l = List.takeWhile isSpaceJS l ++ List.dropWhile isSpaceJS l :=
            hsplit1.symm
        _ = List.takeWhile isSpaceJS l ++ '=' :: l2 := by rw [heq]
        _ = List.takeWhile isSpaceJS l ++
            '=' :: (List.takeWhile isSpaceJS l2 ++ List.dropWhile isSpaceJS l2) := by
            rw [hsplit2]
        _ = List.takeWhile isSpaceJS l ++
            '=' :: (List.takeWhile isSpaceJS l2 ++ (v ++ rest)) := by rw [he]
        _ = List.takeWhile isSpaceJS l ++
            '=' :: List.takeWhile isSpaceJS l2 ++ v ++ rest := by
            simp [List.append_assoc]
    · simp at h
  · simp at h

theorem matchAfterKey_eq_mem {l w1 w2 v rest : List Char}
    (h : matchAfterKey l = some (w1, w2, v, rest)) : '=' ∈ l := by
  obtain ⟨he, _⟩ := matchAfterKey_some_inv h
  rw [he]
  simp

theorem isReserved_ne_nil {v : List Char} (h : isReserved v = true) : v ≠ [] := by
  rintro rfl
  exact absurd h (by decide)

/-- `matchAfterKey` on `=` directly followed by a bare all-word value at the
end of the input. -/
theorem matchAfterKey_eq_cons {b : List Char} (hb : b ≠ [])
    (hbAll : ∀ c ∈ b, isWordChar c = true) :
    matchAfterKey ('=' :: b) = some ([], [], b, []) := by
  rcases b with _ | ⟨c0, b'⟩
  · exact absurd rfl hb
  · have hc0 : isWordChar c0 = true := hbAll c0 (by simp)
    have hmv : matchValue (c0 :: b') = some (c0 :: b', []) := by
      have hta := takeWhile_all hbAll
      have hda := dropWhile_all hbAll
      rcases b' with _ | ⟨c1, b2⟩
      · simp only [matchValue, hta, hda]
        simp [lookaheadQuote]
      · simp only [matchValue, hta, hda]
        simp [lookaheadQuote]
    have h1 : List.takeWhile isSpaceJS ('=' :: c0 :: b') = [] :=
      takeWhile_nil_of_head (by decide)
    have h2 : List.dropWhile isSpaceJS ('=' :: c0 :: b') = '=' :: c0 :: b' :=
      dropWhile_cons_of_head (by decide)
    have h3 : List.takeWhile isSpaceJS (c0 :: b') = [] :=
      takeWhile_nil_of_head (word_not_space hc0)
    have h4 : List.dropWhile isSpaceJS (c0 :: b') = c0 :: b' :=
      dropWhile_cons_of_head (word_not_space hc0)
    simp only [matchAfterKey, h1, h2, h3, h4, hmv]

/-! ## Walk lemmas for the two scans -/

/-- When a list has no equals sign, the first regex never matches in it. -/
theorem scan1_no_eq {l : List Char} (h : '=' ∉ l) : scan1 l = l := by
  induction l with
  | nil => rfl
  | cons c t ih =>
    rw [scan1_cons]
    cases hs : stripSpaceLit (c :: t) with
    | none =>
      simp only []
      rw [ih (fun hm => h (by simp [hm]))]
    | some l5 =>
      simp only []
      cases hm : matchAfterKey l5 with
      | none =>
        simp only []
        rw [ih (fun hm2 => h (by simp [hm2]))]
      | some q =>
        obtain ⟨w1, w2, v, rest⟩ := q
        exfalso
        apply h
        have hmem : '=' ∈ l5 := matchAfterKey_eq_mem hm
        rw [stripSpaceLit_eq_some hs]
        simp [hmem]

/-- When a list has no equals sign, the second regex never matches in it. -/
theorem scan2_no_eq {l : List Char} (h : '=' ∉ l) : scan2 l = l := by
  induction l with
  | nil => rfl
  | cons c t ih =>
    rw [scan2_cons]
    by_cases hw : isWordChar c
    · simp only [hw, if_true]
      cases hm : matchAfterKey (t.dropWhile isWordChar) with
      | none =>
        simp only []
        rw [ih (fun hm2 => h (by simp [hm2]))]
      | some q =>
        obtain ⟨w1, w2, v, rest⟩ := q
        exfalso
        apply h
        have hmem : '=' ∈ t.dropWhile isWordChar := matchAfterKey_eq_mem hm
        have : '=' ∈ t := (List.dropWhile_sublist isWordChar).subset hmem
        simp [this]
    · simp only [hw, Bool.false_eq_true, if_false]
      rw [ih (fun hm2 => h (by simp [hm2]))]

/-- Peel one word character off an append against a word-headed
decomposition: the character must come from the word run, not from the
non-word-headed continuation. -/
theorem peel_word {w E l2 : List Char} {d : Char}
    (hE : E.takeWhile isWordChar = []) (hd : isWordChar d = true)
    (heq : w ++ E = d :: l2) :
    ∃ w2, w = d :: w2 ∧ w2 ++ E = l2 := by
  cases w with
  | nil =>
    simp only [List.nil_append] at heq
    rw [heq, List.takeWhile_cons_of_pos hd] at hE
    simp at hE
  | cons a w2 =>
    simp only [List.cons_append, List.cons.injEq] at heq
    exact ⟨w2, by rw [heq.1], heq.2⟩

/-- The second scan walks through a word run that is followed by input on
which the pattern cannot match. -/
theorem scan2_word_pfx (w E : List Char)
    (hwAll : ∀ c ∈ w, isWordChar c = true)
    (hE : E.takeWhile isWordChar = [])
    (hmakE : matchAfterKey E = none) :
    scan2 (w ++ E) = w ++ scan2 E := by
  induction w with
  | nil => simp
  | cons c w' ih =>
    have hc : isWordChar c = true := hwAll c (by simp)
    have hwAll' : ∀ c ∈ w', isWordChar c = true :=
      fun d hd => hwAll d (by simp [hd])
    rw [List.cons_append, scan2_cons]
    have hdw : (w' ++ E).dropWhile isWordChar = E := by
      rw [List.dropWhile_append_of_pos hwAll']
      have hsp := List.takeWhile_append_dropWhile (p := isWordChar) (l := E)
      rw [hE] at hsp
      simpa using hsp
    simp only [hc, if_true, hdw, hmakE]
    rw [ih hwAll']
    rfl

/-- The first scan walks through a word run that is followed by input on
which the pattern cannot match. -/
theorem scan1_word_pfx (w E : List Char)
    (hwAll : ∀ c ∈ w, isWordChar c = true)
    (hE : E.takeWhile isWordChar = [])
    (hmakE : matchAfterKey E = none) :
    scan1 (w ++ E) = w ++ scan1 E := by
  induction w with
  | nil => simp
  | cons c w' ih =>
    have hwAll' : ∀ c ∈ w', isWordChar c = true :=
      fun d hd => hwAll d (by simp [hd])
    rw [List.cons_append, scan1_cons]
    cases hs : stripSpaceLit (c :: (w' ++ E)) with
    | none =>
      simp only []
      rw [ih hwAll']
      rfl
    | some l5 =>
      simp only []
      have heq := stripSpaceLit_eq_some hs
      have heq2 : w' ++ E = 'p' :: 'a' :: 'c' :: 'e' :: l5 := by
        have h0 := heq
        rw [List.cons.injEq] at h0
        exact h0.2
      obtain ⟨wa, hwa, hea⟩ := peel_word hE (by decide) heq2
      have hwaAll : ∀ c ∈ wa, isWordChar c = true :=
        fun d hd => hwAll' d (by simp [hwa, hd])
      obtain ⟨wb, hwb, heb⟩ := peel_word hE (by decide) hea
      have hwbAll : ∀ c ∈ wb, isWordChar c = true :=
        fun d hd => hwaAll d (by simp [hwb, hd])
      obtain ⟨wc, hwc, hec⟩ := peel_word hE (by decide) heb
      have hwcAll : ∀ c ∈ wc, isWordChar c = true :=
        fun d hd => hwbAll d (by simp [hwc, hd])
      obtain ⟨wd0, hwd, hed⟩ := peel_word hE (by decide) hec
      have hwdAll : ∀ c ∈ wd0, isWordChar c = true :=
        fun d hd => hwcAll d (by simp [hwd, hd])
      have hmak : matchAfterKey l5 = none := by
        rw [← hed]
        cases wd0 with
        | nil => simpa using hmakE
        | cons d w3 =>
          have hd : isWordChar d = true := hwdAll d (by simp)
          rw [List.cons_append]
          exact matchAfterKey_none_of_head (word_not_space hd) (word_ne_eq hd)
      rw [hmak]
      simp only []
      rw [ih hwAll']
      rfl


/-! ## The reserved single-pair rewrite (claim C5) -/

theorem matchAfterKey_eq_quote (rest : List Char) :
    matchAfterKey ('=' :: '"' :: rest) = none := by
  have h1 : List.takeWhile isSpaceJS ('=' :: '"' :: rest) = [] :=
    takeWhile_nil_of_head (by decide)
  have h2 : List.dropWhile isSpaceJS ('=' :: '"' :: rest) = '=' :: '"' :: rest :=
    dropWhile_cons_of_head (by decide)
  have h3 : List.takeWhile isSpaceJS ('"' :: rest) = [] :=
    takeWhile_nil_of_head (by decide)
  have h4 : List.dropWhile isSpaceJS ('"' :: rest) = '"' :: rest :=
    dropWhile_cons_of_head (by decide)
  have h5 : matchValue ('"' :: rest) = none := by
    have ht : List.takeWhile isWordChar ('"' :: rest) = [] :=
      takeWhile_nil_of_head (by decide)
    simp only [matchValue, ht]
  simp only [matchAfterKey, h1, h2, h3, h4, h5]

/-- Outcome of the first scan on a bare `identifier=value` pair with a
reserved value: either the position of the equals sign is not preceded by
the literal `space`, and the scan leaves the input unchanged, or it is, and
the scan already performs the quoting rewrite. -/
theorem scan1_pair (w b : List Char)
    (hwAll : ∀ c ∈ w, isWordChar c = true)
    (hb : b ≠ []) (hbAll : ∀ c ∈ b, isWordChar c = true)
    (hres : isReserved b = true) :
    scan1 (w ++ '=' :: b) = w ++ '=' :: b ∨
    scan1 (w ++ '=' :: b) = w ++ ('=' :: '"' :: (b ++ ['"'])) := by
  have hEtw : ('=' :: b).takeWhile isWordChar = [] :=
    takeWhile_nil_of_head (by decide)
  induction w with
  | nil =>
    left
    simp only [List.nil_append]
    rw [scan1_cons, stripSpaceLit_none_of_head (by decide)]
    simp only []
    rw [scan1_no_eq (fun hm => absurd (hbAll '=' hm) (by decide))]
  | cons c w' ih =>
    have hwAll' : ∀ c ∈ w', isWordChar c = true :=
      fun d hd => hwAll d (by simp [hd])
    rw [List.cons_append, scan1_cons]
    cases hs : stripSpaceLit (c :: (w' ++ '=' :: b)) with
    | none =>
      simp only []
      rcases ih hwAll' with h1 | h1
      · left
        rw [h1]
      · right
        rw [h1]
        simp
    | some l5 =>
      simp only []
      have heq := stripSpaceLit_eq_some hs
      have heq2 : w' ++ '=' :: b = 'p' :: 'a' :: 'c' :: 'e' :: l5 := by
        have h0 := heq
        rw [List.cons.injEq] at h0
        exact h0.2
      have hcs : c = 's' := by
        have h0 := heq
        rw [List.cons.injEq] at h0
        exact h0.1
      obtain ⟨wa, hwa, hea⟩ := peel_word hEtw (by decide) heq2
      have hwaAll : ∀ c ∈ wa, isWordChar c = true :=
        fun d hd => hwAll' d (by simp [hwa, hd])
      obtain ⟨wb0, hwb, heb⟩ := peel_word hEtw (by decide) hea
      have hwbAll : ∀ c ∈ wb0, isWordChar c = true :=
        fun d hd => hwaAll d (by simp [hwb, hd])
      obtain ⟨wc0, hwc, hec⟩ := peel_word hEtw (by decide) heb
      have hwcAll : ∀ c ∈ wc0, isWordChar c = true :=
        fun d hd => hwbAll d (by simp [hwc, hd])
      obtain ⟨wd0, hwd, hed⟩ := peel_word hEtw (by decide) hec
      have hwdAll : ∀ c ∈ wd0, isWordChar c = true :=
        fun d hd => hwcAll d (by simp [hwd, hd])
      cases wd0 with
      | nil =>
        right
        have hl5 : l5 = '=' :: b := by
          rw [← hed]
          rfl
        rw [hl5, matchAfterKey_eq_cons hb hbAll]
        simp only []
        rw [if_pos hres]
        rw [scan1_nil]
        have hw' : w' = ['p', 'a', 'c', 'e'] := by
          rw [hwa, hwb, hwc, hwd]
        rw [hcs, hw']
        simp [spaceLit]
      | cons d w3 =>
        have hd : isWordChar d = true := hwdAll d (by simp)
        have hmak : matchAfterKey l5 = none := by
          rw [← hed, List.cons_append]
          exact matchAfterKey_none_of_head (word_not_space hd) (word_ne_eq hd)
        rw [hmak]
        simp only []
        rcases ih hwAll' with h1 | h1
        · left
          rw [h1]
        · right
          rw [h1]
          simp

/-- The second scan performs the quoting rewrite on a bare
`identifier=value` pair with a reserved value. -/
theorem scan2_pair (w b : List Char)
    (hw : w ≠ []) (hwAll : ∀ c ∈ w, isWordChar c = true)
    (hb : b ≠ []) (hbAll : ∀ c ∈ b, isWordChar c = true)
    (hres : isReserved b = true) :
    scan2 (w ++ '=' :: b) = w ++ ('=' :: '"' :: (b ++ ['"'])) := by
  rcases w with _ | ⟨c, w'⟩
  · exact absurd rfl hw
  · have hc : isWordChar c = true := hwAll c (by simp)
    have hwAll' : ∀ c ∈ w', isWordChar c = true :=
      fun d hd => hwAll d (by simp [hd])
    rw [List.cons_append, scan2_cons]
    have hdw : (w' ++ '=' :: b).dropWhile isWordChar = '=' :: b := by
      rw [List.dropWhile_append_of_pos hwAll', dropWhile_cons_of_head (by decide)]
    have htw : (w' ++ '=' :: b).takeWhile isWordChar = w' := by
      rw [List.takeWhile_append_of_pos hwAll', takeWhile_nil_of_head (by decide)]
      simp
    simp only [hc, if_true, hdw, matchAfterKey_eq_cons hb hbAll]
    rw [if_pos hres, htw, scan2_nil]
    simp

/-- The second scan leaves the quoted rewrite result unchanged. -/
theorem scan2_quoted_inert (w b : List Char)
    (hwAll : ∀ c ∈ w, isWordChar c = true)
    (hbAll : ∀ c ∈ b, isWordChar c = true) :
    scan2 (w ++ ('=' :: '"' :: (b ++ ['"']))) = w ++ ('=' :: '"' :: (b ++ ['"'])) := by
  have h1 : scan2 (w ++ ('=' :: '"' :: (b ++ ['"']))) =
      w ++ scan2 ('=' :: '"' :: (b ++ ['"'])) :=
    scan2_word_pfx w ('=' :: '"' :: (b ++ ['"'])) hwAll
      (takeWhile_nil_of_head (by decide)) (matchAfterKey_eq_quote _)
  rw [h1]
  congr 1
  rw [scan2_cons]
  simp only [show isWordChar '=' = false by decide, Bool.false_eq_true, if_false]
  congr 1
  rw [scan2_cons]
  simp only [show isWordChar '"' = false by decide, Bool.false_eq_true, if_false]
  congr 1
  have h2 : scan2 (b ++ ['"']) = b ++ scan2 ['"'] :=
    scan2_word_pfx b ['"'] hbAll (takeWhile_nil_of_head (by decide))
      (matchAfterKey_none_of_head (by decide) (by decide))
  rw [h2]
  rfl

/-- Step 3 passes a query with no space character through unchanged. -/
theorem step3_no_space {l : List Char} (h : l.contains ' ' = false) :
    step3 l = l := by
  unfold step3
  rw [h]
  simp

/-- C5, amended: the keyword-quoting passes are left-to-right regex scans,
so an occurrence of `identifier = bareWord` that overlaps text already
consumed by an earlier match of the same pass is left untouched; for a
query that is a single such pair — a non-empty identifier of word
characters, `=`, and a bare word that case-insensitively matches the
reserved set — `processCqlQuery` rewrites it to `identifier="bareWord"`;
in particular, for every reserved keyword k,
`processCqlQuery ("space=" ++ k) = "space=\"" ++ k ++ "\""`. -/
theorem processCqlQuery_reserved_pair (w b : List Char)
    (hw : w ≠ []) (hwAll : ∀ c ∈ w, isWordChar c = true)
    (hb : b ≠ []) (hbAll : ∀ c ∈ b, isWordChar c = true)
    (hres : isReserved b = true) :
    processCqlQuery (String.mk (w ++ '=' :: b)) =
      String.mk (w ++ ('=' :: '"' :: (b ++ ['"']))) := by
  unfold processCqlQuery
  have hdata : (String.mk (w ++ '=' :: b)).data = w ++ '=' :: b := rfl
  rw [hdata]
  have hnospace : (w ++ ('=' :: '"' :: (b ++ ['"']))).contains ' ' = false := by
    have hmem : ' ' ∉ w ++ ('=' :: '"' :: (b ++ ['"'])) := by
      intro hmem
      simp only [List.mem_append, List.mem_cons] at hmem
      rcases hmem with hw1 | h | h | hmem2
      · exact absurd (hwAll _ hw1) (by decide)
      · exact absurd h (by decide)
      · exact absurd h (by decide)
      · rcases hmem2 with hb1 | h
        · exact absurd (hbAll _ hb1) (by decide)
        · rcases h with h | h
          · exact absurd h (by decide)
          · exact absurd h (List.not_mem_nil _)
    simpa using hmem
  rcases scan1_pair w b hwAll hb hbAll hres with h1 | h1
  · rw [h1, scan2_pair w b hw hwAll hb hbAll hres, step3_no_space hnospace]
  · rw [h1, scan2_quoted_inert w b hwAll hbAll, step3_no_space hnospace]

/-- Counterexample for C5 as stated: in `a=b=IN` the occurrence `b=IN`
(identifier `b`, unquoted bare word `IN` of the reserved set) is not
rewritten, because the left-to-right scan already consumed `a=b`. -/
theorem processCqlQuery_overlap_counterexample :
    processCqlQuery "a=b=IN" = "a=b=IN" ∧
    ("a=b=IN" : String) ≠ "a=b=\"IN\"" := by
  constructor <;> decide

/-- Witness for C5 at two concrete reserved keywords. -/
theorem processCqlQuery_reserved_pair_witness :
    processCqlQuery "space=AND" = "space=\"AND\"" ∧
    processCqlQuery "space=ORDER" = "space=\"ORDER\"" := by
  constructor
  · have h := processCqlQuery_reserved_pair "space".data "AND".data
      (by decide) (by decide) (by decide) (by decide) (by decide)
    have e1 : String.mk ("space".data ++ '=' :: "AND".data) = "space=AND" := by decide
    have e2 : String.mk ("space".data ++ ('=' :: '"' :: ("AND".data ++ ['"']))) =
        "space=\"AND\"" := by decide
    rw [← e1, ← e2]
    exact h
  · have h := processCqlQuery_reserved_pair "space".data "ORDER".data
      (by decide) (by decide) (by decide) (by decide) (by decide)
    have e1 : String.mk ("space".data ++ '=' :: "ORDER".data) = "space=ORDER" := by
      decide
    have e2 : String.mk ("space".data ++ ('=' :: '"' :: ("ORDER".data ++ ['"']))) =
        "space=\"ORDER\"" := by decide
    rw [← e1, ← e2]
    exact h


/-! ## Claim C6: the free-text rewrite -/

/-- C6, amended: after the keyword-quoting rewrites, when the query
contains none of the space-padded substrings `" AND "`, `" OR "`,
`" NOT "`, contains at least one space character (U+0020), splits at
spaces into more than one term surviving the trim filter, and contains
none of `=`, `~`, `(`, `)`, then `processCqlQuery` returns the surviving
terms (split at spaces only, other whitespace staying inside a term)
rejoined as `text~"term"` clauses conjoined with `" AND "`; otherwise the
query passes through this rule unchanged.  In particular
`processCqlQuery "hello world"` is the two-clause conjunction and a query
already carrying `" AND "` or structural characters is unchanged. -/
theorem processCqlQuery_freetext_spec (x : String) :
    (hasSub [' ', 'A', 'N', 'D', ' '] (scan2 (scan1 x.data)) = false →
     hasSub [' ', 'O', 'R', ' '] (scan2 (scan1 x.data)) = false →
     hasSub [' ', 'N', 'O', 'T', ' '] (scan2 (scan1 x.data)) = false →
     (scan2 (scan1 x.data)).contains ' ' = true →
     1 < ((splitOnSpace (scan2 (scan1 x.data))).filter trimTruthy).length →
     hasComplexSyntax (scan2 (scan1 x.data)) = false →
     processCqlQuery x =
       String.mk (joinAnd ((splitOnSpace (scan2 (scan1 x.data))).filter trimTruthy))) ∧
    (hasSub [' ', 'A', 'N', 'D', ' '] (scan2 (scan1 x.data)) = true ∨
     hasSub [' ', 'O', 'R', ' '] (scan2 (scan1 x.data)) = true ∨
     hasSub [' ', 'N', 'O', 'T', ' '] (scan2 (scan1 x.data)) = true ∨
     (scan2 (scan1 x.data)).contains ' ' = false ∨
     ((splitOnSpace (scan2 (scan1 x.data))).filter trimTruthy).length ≤ 1 ∨
     hasComplexSyntax (scan2 (scan1 x.data)) = true →
     processCqlQuery x = String.mk (scan2 (scan1 x.data))) := by
  constructor
  · intro hA hO hN hSp hLen hCx
    unfold processCqlQuery step3
    rw [hA, hO, hN, hSp]
    simp only [Bool.not_false, Bool.and_true, Bool.true_and, if_true]
    rw [if_pos hLen, hCx]
    simp
  · intro hdisj
    unfold processCqlQuery step3
    rcases hdisj with h | h | h | h | h | h
    · rw [h]
      simp
    · rw [h]
      simp
    · rw [h]
      simp
    · rw [h]
      simp
    · split
      · rw [if_neg (by omega)]
      · rfl
    · split
      · simp [h]
      · rfl

/-- Counterexample for C6 as stated: the query `a` tab `b` has a
whitespace-separated term boundary, no connective and no structural
character, so the claim requires the rewritten conjunction, but the source
tests only for the space character U+0020 and leaves the query unchanged. -/
theorem processCqlQuery_tab_counterexample :
    processCqlQuery "a\tb" = "a\tb" ∧
    ("a\tb" : String) ≠ "text~\"a\" AND text~\"b\"" := by
  constructor <;> decide

/-- Witness for C6 at the two concrete queries of the claim. -/
theorem processCqlQuery_freetext_spec_witness :
    processCqlQuery "hello world" = "text~\"hello\" AND text~\"world\"" ∧
    processCqlQuery "type=page AND text~\"API\"" = "type=page AND text~\"API\"" := by
  constructor
  · have h := (processCqlQuery_freetext_spec "hello world").1 (by decide) (by decide)
      (by decide) (by decide) (by decide) (by decide)
    rw [h]
    decide
  · have h := (processCqlQuery_freetext_spec "type=page AND text~\"API\"").2
      (Or.inl (by decide))
    rw [h]
    decide


/-! ## Machinery for claim C1: idempotence of the two scans.

The proofs below analyse the scans as leftmost walks.  The key
preservation facts: each scan keeps the head character, commutes with
dropping leading whitespace, and preserves the quote lookahead, so a
failed or non-reserved match at a position fails or re-matches
identically after rescanning. -/

theorem space_not_word {c : Char} (h : isSpaceJS c = true) : isWordChar c = false := by
  cases hw : isWordChar c
  · rfl
  · rw [word_not_space hw] at h
    simp at h

theorem space_ne_s {c : Char} (h : isSpaceJS c = true) : c ≠ 's' := by
  rintro rfl
  exact absurd h (by decide)

theorem nonword_ne_s {c : Char} (h : isWordChar c = false) : c ≠ 's' := by
  rintro rfl
  exact absurd h (by decide)

theorem takeWhile_head_false {p : Char → Bool} {l : List Char}
    (h : l.takeWhile p = []) : ∀ c, l.head? = some c → p c = false := by
  intro c hc
  cases l with
  | nil => simp at hc
  | cons d t =>
    injection hc with hd
    subst hd
    by_contra hp
    simp only [Bool.not_eq_false] at hp
    rw [List.takeWhile_cons_of_pos hp] at h
    simp at h

theorem take_nil_of_head_pres {p : Char → Bool} {X Y : List Char}
    (hh : X.head? = Y.head?) (h : Y.takeWhile p = []) : X.takeWhile p = [] := by
  cases X with
  | nil => rfl
  | cons x xs =>
    exact takeWhile_nil_of_head (takeWhile_head_false h x (by rw [← hh]; rfl))

theorem dropWhile_of_take_nil {p : Char → Bool} {l : List Char}
    (h : l.takeWhile p = []) : l.dropWhile p = l := by
  cases l with
  | nil => rfl
  | cons c t => exact dropWhile_cons_of_head (takeWhile_head_false h c rfl)

theorem takeWhile_dropWhile_nil (p : Char → Bool) (l : List Char) :
    (l.dropWhile p).takeWhile p = [] := by
  induction l with
  | nil => rfl
  | cons c t ih =>
    by_cases hp : p c = true
    · rw [List.dropWhile_cons_of_pos hp]
      exact ih
    · have hp2 : p c = false := by simpa using hp
      rw [dropWhile_cons_of_head hp2]
      exact takeWhile_nil_of_head hp2

theorem stripSpaceLit_cons5 (X : List Char) :
    stripSpaceLit ('s' :: 'p' :: 'a' :: 'c' :: 'e' :: X) = some X := rfl

theorem stripSpaceLit_none_single (c : Char) : stripSpaceLit [c] = none := by
  unfold stripSpaceLit
  split
  · rename_i heq
    simp at heq
  · rfl

theorem stripSpaceLit_none_of_second {c d : Char} {t : List Char} (h : d ≠ 'p') :
    stripSpaceLit (c :: d :: t) = none := by
  unfold stripSpaceLit
  split
  · rename_i heq
    injection heq with h1 h2
    injection h2 with h3 _
    exact absurd h3 h
  · rfl

theorem stripSpaceLit_none_of_tail_nonword {c : Char} {t : List Char}
    (h : t.takeWhile isWordChar = []) : stripSpaceLit (c :: t) = none := by
  cases t with
  | nil => exact stripSpaceLit_none_single c
  | cons d t2 =>
    have hd : isWordChar d = false := takeWhile_head_false h d rfl
    refine stripSpaceLit_none_of_second (fun hdp => ?_)
    subst hdp
    exact absurd hd (by decide)

theorem scan1_cons_nostrip {c : Char} {t : List Char}
    (h : stripSpaceLit (c :: t) = none) : scan1 (c :: t) = c :: scan1 t := by
  rw [scan1_cons, h]

theorem scan1_cons_nomak {c : Char} {t l5 : List Char}
    (h : stripSpaceLit (c :: t) = some l5) (h2 : matchAfterKey l5 = none) :
    scan1 (c :: t) = c :: scan1 t := by
  rw [scan1_cons, h]
  simp only [h2]

theorem scan1_cons_match {c : Char} {t l5 w1 w2 v rest : List Char}
    (h : stripSpaceLit (c :: t) = some l5)
    (h2 : matchAfterKey l5 = some (w1, w2, v, rest)) :
    scan1 (c :: t) =
      if isReserved v then spaceLit ++ '=' :: '"' :: v ++ '"' :: scan1 rest
      else spaceLit ++ w1 ++ '=' :: w2 ++ v ++ scan1 rest := by
  rw [scan1_cons, h]
  simp only [h2]

theorem scan2_cons_nonword {c : Char} {t : List Char}
    (h : isWordChar c = false) : scan2 (c :: t) = c :: scan2 t := by
  rw [scan2_cons, h]
  simp

theorem scan2_cons_nomak {c : Char} {t : List Char} (hw : isWordChar c = true)
    (h : matchAfterKey (t.dropWhile isWordChar) = none) :
    scan2 (c :: t) = c :: scan2 t := by
  rw [scan2_cons, hw]
  simp only [if_true, h]

theorem scan2_cons_match {c : Char} {t w1 w2 v rest : List Char}
    (hw : isWordChar c = true)
    (h : matchAfterKey (t.dropWhile isWordChar) = some (w1, w2, v, rest)) :
    scan2 (c :: t) =
      if isReserved v then
        (c :: t.takeWhile isWordChar) ++ '=' :: '"' :: v ++ '"' :: scan2 rest
      else (c :: t.takeWhile isWordChar) ++ w1 ++ '=' :: w2 ++ v ++ scan2 rest := by
  rw [scan2_cons, hw]
  simp only [if_true, h]

theorem scan1_head (l : List Char) : (scan1 l).head? = l.head? := by
  cases l with
  | nil => rfl
  | cons c t =>
    rw [scan1_cons]
    cases hs : stripSpaceLit (c :: t) with
    | none => rfl
    | some l5 =>
      simp only []
      cases hm : matchAfterKey l5 with
      | none => rfl
      | some q =>
        obtain ⟨w1, w2, v, rest⟩ := q
        simp only []
        have hc : c = 's' := by
          have h0 := stripSpaceLit_eq_some hs
          rw [List.cons.injEq] at h0
          exact h0.1
        subst hc
        split <;> rfl

theorem scan2_head (l : List Char) : (scan2 l).head? = l.head? := by
  cases l with
  | nil => rfl
  | cons c t =>
    rw [scan2_cons]
    by_cases hw : isWordChar c
    · simp only [hw, if_true]
      cases hm : matchAfterKey (t.dropWhile isWordChar) with
      | none => rfl
      | some q =>
        obtain ⟨w1, w2, v, rest⟩ := q
        simp only []
        split <;> rfl
    · simp only [hw, Bool.false_eq_true, if_false]
      rfl

theorem scan1_space_pfx {w : List Char} (X : List Char)
    (hw : ∀ c ∈ w, isSpaceJS c = true) : scan1 (w ++ X) = w ++ scan1 X := by
  induction w with
  | nil => simp
  | cons c w2 ih =>
    have hc := hw c (by simp)
    rw [List.cons_append,
      scan1_cons_nostrip (stripSpaceLit_none_of_head (space_ne_s hc)),
      ih (fun d hd => hw d (by simp [hd]))]
    simp

theorem scan2_space_pfx {w : List Char} (X : List Char)
    (hw : ∀ c ∈ w, isSpaceJS c = true) : scan2 (w ++ X) = w ++ scan2 X := by
  induction w with
  | nil => simp
  | cons c w2 ih =>
    have hc := hw c (by simp)
    rw [List.cons_append, scan2_cons_nonword (space_not_word hc),
      ih (fun d hd => hw d (by simp [hd]))]
    simp

theorem dropWhile_space_scan1 (l : List Char) :
    (scan1 l).dropWhile isSpaceJS = scan1 (l.dropWhile isSpaceJS) := by
  induction l with
  | nil => rfl
  | cons c t ih =>
    by_cases hc : isSpaceJS c = true
    · rw [scan1_cons_nostrip (stripSpaceLit_none_of_head (space_ne_s hc)),
        List.dropWhile_cons_of_pos hc, List.dropWhile_cons_of_pos hc]
      exact ih
    · have hc2 : isSpaceJS c = false := by simpa using hc
      rw [dropWhile_cons_of_head hc2]
      have hh : (scan1 (c :: t)).head? = some c := by rw [scan1_head]; rfl
      cases hsc : scan1 (c :: t) with
      | nil =>
        rw [hsc] at hh
        simp at hh
      | cons d r =>
        rw [hsc] at hh
        injection hh with hd
        subst hd
        exact dropWhile_cons_of_head hc2

theorem dropWhile_space_scan2 (l : List Char) :
    (scan2 l).dropWhile isSpaceJS = scan2 (l.dropWhile isSpaceJS) := by
  induction l with
  | nil => rfl
  | cons c t ih =>
    by_cases hc : isSpaceJS c = true
    · rw [scan2_cons_nonword (space_not_word hc),
        List.dropWhile_cons_of_pos hc, List.dropWhile_cons_of_pos hc]
      exact ih
    · have hc2 : isSpaceJS c = false := by simpa using hc
      rw [dropWhile_cons_of_head hc2]
      have hh : (scan2 (c :: t)).head? = some c := by rw [scan2_head]; rfl
      cases hsc : scan2 (c :: t) with
      | nil =>
        rw [hsc] at hh
        simp at hh
      | cons d r =>
        rw [hsc] at hh
        injection hh with hd
        subst hd
        exact dropWhile_cons_of_head hc2

theorem lookahead_eq_head (l : List Char) :
    lookaheadQuote l = ((l.dropWhile isSpaceJS).head? == some '"') := by
  unfold lookaheadQuote
  cases hd : l.dropWhile isSpaceJS with
  | nil => rfl
  | cons c r =>
    simp only [List.head?_cons]
    by_cases hc : c = '"'
    · subst hc
      simp
    · have h2 : (some c == some '"') = false := by
        simp [hc]
      rw [h2]
      split
      · rename_i heq
        rw [List.cons.injEq] at heq
        exact absurd heq.1 hc
      · rfl

theorem lookahead_scan1 (l : List Char) :
    lookaheadQuote (scan1 l) = lookaheadQuote l := by
  rw [lookahead_eq_head, lookahead_eq_head, dropWhile_space_scan1, scan1_head]

theorem lookahead_scan2 (l : List Char) :
    lookaheadQuote (scan2 l) = lookaheadQuote l := by
  rw [lookahead_eq_head, lookahead_eq_head, dropWhile_space_scan2, scan2_head]

theorem mak_none_of_lookahead {m : List Char} (h : lookaheadQuote m = true) :
    matchAfterKey m = none := by
  unfold lookaheadQuote at h
  unfold matchAfterKey
  cases hd : m.dropWhile isSpaceJS with
  | nil =>
    rw [hd] at h
  | cons c r =>
    rw [hd] at h
    have hc : c = '"' := by
      split at h
      · rename_i heq
        rw [List.cons.injEq] at heq
        exact heq.1
      · simp at h
    subst hc
    split
    · rename_i heq
      rw [List.cons.injEq] at heq
      exact absurd heq.1 (by decide)
    · rfl

/-- Full shape inversion of a successful `matchValue`: either the value is
the maximal word run and the rest fails the quote lookahead, or the match
backtracked one character before a quote lookahead. -/
theorem matchValue_shape {l v rest : List Char} (h : matchValue l = some (v, rest)) :
    (l = v ++ rest ∧ v ≠ [] ∧ (∀ c ∈ v, isWordChar c = true) ∧
     rest.takeWhile isWordChar = [] ∧ lookaheadQuote rest = false) ∨
    (∃ g dw, rest = g :: dw ∧ isWordChar g = true ∧ l = v ++ g :: dw ∧ v ≠ [] ∧
     (∀ c ∈ v, isWordChar c = true) ∧ dw.takeWhile isWordChar = [] ∧
     lookaheadQuote dw = true) := by
  have hsplit := List.takeWhile_append_dropWhile (p := isWordChar) (l := l)
  have hwords : ∀ c ∈ l.takeWhile isWordChar, isWordChar c = true :=
    fun c hc => List.mem_takeWhile_imp hc
  have hdropnil : (l.dropWhile isWordChar).takeWhile isWordChar = [] :=
    takeWhile_dropWhile_nil _ _
  simp only [matchValue] at h
  split at h
  · simp at h
  · rename_i c heq
    rw [heq] at hsplit hwords
    split at h
    · simp at h
    · rename_i hlk
      cases h
      left
      exact ⟨hsplit.symm, by simp, hwords, hdropnil, by simpa using hlk⟩
  · rename_i c1 c2 rs heq
    rw [heq] at hsplit hwords
    split at h <;> cases h
    · rename_i hlk
      right
      have hne : (c1 :: c2 :: rs) ≠ [] := by simp
      refine ⟨(c1 :: c2 :: rs).getLastD 'x', l.dropWhile isWordChar, rfl, ?_, ?_,
        by simp, ?_, hdropnil, hlk⟩
      · apply hwords
        rw [List.getLastD_eq_getLast?, List.getLast?_eq_getLast _ hne]
        simp only [Option.getD_some]
        exact List.getLast_mem hne
      · have hrun : (c1 :: c2 :: rs).dropLast ++ [(c1 :: c2 :: rs).getLastD 'x'] =
            c1 :: c2 :: rs := by
          rw [List.getLastD_eq_getLast?, List.getLast?_eq_getLast _ hne]
          simp only [Option.getD_some]
          exact List.dropLast_append_getLast hne
        calc l = (c1 :: c2 :: rs) ++ l.dropWhile isWordChar := hsplit.symm
          _ = ((c1 :: c2 :: rs).dropLast ++ [(c1 :: c2 :: rs).getLastD 'x']) ++
              l.dropWhile isWordChar := by rw [hrun]
          _ = (c1 :: c2 :: rs).dropLast ++ (c1 :: c2 :: rs).getLastD 'x' ::
              l.dropWhile isWordChar := by simp
      · intro c hc
        exact hwords c ((List.dropLast_sublist (c1 :: c2 :: rs)).subset hc)
    · rename_i hlk
      left
      exact ⟨hsplit.symm, by simp, hwords, hdropnil, by simpa using hlk⟩

/-- Rebuild a non-backtracking `matchValue` result. -/
theorem matchValue_build_nb {v rest : List Char} (hv : v ≠ [])
    (hvAll : ∀ c ∈ v, isWordChar c = true)
    (hr : rest.takeWhile isWordChar = []) (hl : lookaheadQuote rest = false) :
    matchValue (v ++ rest) = some (v, rest) := by
  have hta : (v ++ rest).takeWhile isWordChar = v := by
    rw [List.takeWhile_append_of_pos hvAll, hr, List.append_nil]
  have hda : (v ++ rest).dropWhile isWordChar = rest := by
    rw [List.dropWhile_append_of_pos hvAll, dropWhile_of_take_nil hr]
  rcases v with _ | ⟨c0, v2⟩
  · exact absurd rfl hv
  · rcases v2 with _ | ⟨c1, v3⟩
    · simp only [matchValue, hta, hda, hl, Bool.false_eq_true, if_false]
    · simp only [matchValue, hta, hda, hl, Bool.false_eq_true, if_false]

/-- Rebuild a backtracking `matchValue` result. -/
theorem matchValue_build_bt {v dw : List Char} {g : Char} (hv : v ≠ [])
    (hvAll : ∀ c ∈ v, isWordChar c = true) (hg : isWordChar g = true)
    (hdw : dw.takeWhile isWordChar = []) (hl : lookaheadQuote dw = true) :
    matchValue (v ++ g :: dw) = some (v, g :: dw) := by
  have hallg : ∀ c ∈ v ++ [g], isWordChar c = true := by
    intro c hc
    rcases List.mem_append.mp hc with h1 | h1
    · exact hvAll c h1
    · rw [List.mem_singleton.mp h1]
      exact hg
  have hassoc : v ++ g :: dw = (v ++ [g]) ++ dw := by simp
  have hta : ((v ++ [g]) ++ dw).takeWhile isWordChar = v ++ [g] := by
    rw [List.takeWhile_append_of_pos hallg, hdw, List.append_nil]
  have hda : ((v ++ [g]) ++ dw).dropWhile isWordChar = dw := by
    rw [List.dropWhile_append_of_pos hallg, dropWhile_of_take_nil hdw]
  rw [hassoc]
  rcases hcons : v ++ [g] with _ | ⟨c0, u⟩
  · simp at hcons
  · rcases u with _ | ⟨c1, u2⟩
    · have hvnil : v = [] := by
        cases v with
        | nil => rfl
        | cons a as =>
          simp only [List.cons_append, List.cons.injEq] at hcons
          have h2 := hcons.2
          simp at h2
      exact absurd hvnil hv
    · rw [hcons] at hta hda
      have hdl : (v ++ [g]).dropLast = v := by simp
      have hgl : (v ++ [g]).getLastD 'x' = g := by
        rw [List.getLastD_eq_getLast?, List.getLast?_concat]
        rfl
      simp only [matchValue, hta, hda, hl, if_true]
      rw [← hcons, hdl, hgl]

/-- A successful match re-fires identically after the continuation is
rescanned by a head-, whitespace- and lookahead-preserving pass. -/
theorem matchValue_replay {f : List Char → List Char}
    (hhead : ∀ l, (f l).head? = l.head?)
    (hlook : ∀ l, lookaheadQuote (f l) = lookaheadQuote l)
    (hbt : ∀ (g : Char) (dw : List Char), isWordChar g = true →
      dw.takeWhile isWordChar = [] → lookaheadQuote dw = true →
      f (g :: dw) = g :: f dw)
    {l v rest : List Char} (h : matchValue l = some (v, rest)) :
    matchValue (v ++ f rest) = some (v, f rest) := by
  rcases matchValue_shape h with ⟨_, hv, hvAll, hr, hl⟩ |
    ⟨g, dw, hrest, hg, _, hv, hvAll, hdw, hl⟩
  · exact matchValue_build_nb hv hvAll (take_nil_of_head_pres (hhead rest) hr)
      (by rw [hlook]; exact hl)
  · subst hrest
    rw [hbt g dw hg hdw hl]
    exact matchValue_build_bt hv hvAll hg (take_nil_of_head_pres (hhead dw) hdw)
      (by rw [hlook]; exact hl)

theorem scan1_cons_bt (g : Char) (dw : List Char)
    (hdw : dw.takeWhile isWordChar = []) : scan1 (g :: dw) = g :: scan1 dw :=
  scan1_cons_nostrip (stripSpaceLit_none_of_tail_nonword hdw)

theorem scan2_cons_bt (g : Char) (dw : List Char) (hg : isWordChar g = true)
    (hdw : dw.takeWhile isWordChar = []) (hl : lookaheadQuote dw = true) :
    scan2 (g :: dw) = g :: scan2 dw := by
  apply scan2_cons_nomak hg
  rw [dropWhile_of_take_nil hdw]
  exact mak_none_of_lookahead hl

theorem matchValue_replay_scan1 {l v rest : List Char}
    (h : matchValue l = some (v, rest)) :
    matchValue (v ++ scan1 rest) = some (v, scan1 rest) :=
  matchValue_replay scan1_head lookahead_scan1
    (fun g dw _ h2 _ => scan1_cons_bt g dw h2) h

theorem matchValue_replay_scan2 {l v rest : List Char}
    (h : matchValue l = some (v, rest)) :
    matchValue (v ++ scan2 rest) = some (v, scan2 rest) :=
  matchValue_replay scan2_head lookahead_scan2 scan2_cons_bt h

/-- The inner value match of a successful `matchAfterKey`. -/
theorem matchAfterKey_inner {m w1 w2 v rest : List Char}
    (h : matchAfterKey m = some (w1, w2, v, rest)) :
    matchValue (v ++ rest) = some (v, rest) := by
  simp only [matchAfterKey] at h
  split at h
  · rename_i l2 heq
    split at h
    · rename_i v0 rest0 hmv
      cases h
      have hinv := matchValue_some_inv hmv
      rw [hinv.1] at hmv
      exact hmv
    · simp at h
  · simp at h

/-- Rebuild a `matchAfterKey` result from its components. -/
theorem matchAfterKey_build {w1 w2 v X : List Char}
    (hw1 : ∀ c ∈ w1, isSpaceJS c = true) (hw2 : ∀ c ∈ w2, isSpaceJS c = true)
    (hv : v ≠ []) (hvAll : ∀ c ∈ v, isWordChar c = true)
    (hmv : matchValue (v ++ X) = some (v, X)) :
    matchAfterKey (w1 ++ '=' :: (w2 ++ (v ++ X))) = some (w1, w2, v, X) := by
  have hvh : (v ++ X).takeWhile isSpaceJS = [] := by
    rcases v with _ | ⟨c0, v2⟩
    · exact absurd rfl hv
    · exact takeWhile_nil_of_head (word_not_space (hvAll c0 (by simp)))
  have h1 : (w1 ++ '=' :: (w2 ++ (v ++ X))).takeWhile isSpaceJS = w1 := by
    rw [List.takeWhile_append_of_pos hw1, takeWhile_nil_of_head (by decide)]
    simp
  have h2 : (w1 ++ '=' :: (w2 ++ (v ++ X))).dropWhile isSpaceJS =
      '=' :: (w2 ++ (v ++ X)) := by
    rw [List.dropWhile_append_of_pos hw1, dropWhile_cons_of_head (by decide)]
  have h3 : (w2 ++ (v ++ X)).takeWhile isSpaceJS = w2 := by
    rw [List.takeWhile_append_of_pos hw2, hvh, List.append_nil]
  have h4 : (w2 ++ (v ++ X)).dropWhile isSpaceJS = v ++ X := by
    rw [List.dropWhile_append_of_pos hw2, dropWhile_of_take_nil hvh]
  simp only [matchAfterKey, h1, h2, h3, h4, hmv]

theorem matchAfterKey_replay_scan1 {m w1 w2 v rest : List Char}
    (h : matchAfterKey m = some (w1, w2, v, rest)) :
    matchAfterKey (w1 ++ '=' :: (w2 ++ (v ++ scan1 rest))) =
      some (w1, w2, v, scan1 rest) := by
  obtain ⟨_, hw1, hw2, hv, hvAll⟩ := matchAfterKey_some_inv h
  exact matchAfterKey_build hw1 hw2 hv hvAll
    (matchValue_replay_scan1 (matchAfterKey_inner h))

theorem matchAfterKey_replay_scan2 {m w1 w2 v rest : List Char}
    (h : matchAfterKey m = some (w1, w2, v, rest)) :
    matchAfterKey (w1 ++ '=' :: (w2 ++ (v ++ scan2 rest))) =
      some (w1, w2, v, scan2 rest) := by
  obtain ⟨_, hw1, hw2, hv, hvAll⟩ := matchAfterKey_some_inv h
  exact matchAfterKey_build hw1 hw2 hv hvAll
    (matchValue_replay_scan2 (matchAfterKey_inner h))

/-- Inversion of a failed `matchValue`. -/
theorem matchValue_none_inv {l : List Char} (h : matchValue l = none) :
    l.takeWhile isWordChar = [] ∨
    (∃ c l2, l = c :: l2 ∧ isWordChar c = true ∧ l2.takeWhile isWordChar = [] ∧
      lookaheadQuote l2 = true) := by
  simp only [matchValue] at h
  split at h
  · rename_i heq
    exact Or.inl heq
  · rename_i c heq
    split at h
    · rename_i hlk
      right
      cases l with
      | nil => simp at heq
      | cons d l2 =>
        rw [List.takeWhile_cons] at heq
        by_cases hd : isWordChar d = true
        · rw [hd] at heq
          simp only [if_true] at heq
          injection heq with hx1 hx2
          subst hx1
          have hdrop : (d :: l2).dropWhile isWordChar = l2 := by
            rw [List.dropWhile_cons_of_pos hd, dropWhile_of_take_nil hx2]
          rw [hdrop] at hlk
          exact ⟨d, l2, rfl, hd, hx2, hlk⟩
        · have hd2 : isWordChar d = false := by simpa using hd
          rw [hd2] at heq
          simp at heq
    · simp at h
  · split at h <;> simp at h

theorem matchValue_none_scan1 {l : List Char} (h : matchValue l = none) :
    matchValue (scan1 l) = none := by
  rcases matchValue_none_inv h with h1 | ⟨c, l2, rfl, hc, h2, h3⟩
  · have h1b : (scan1 l).takeWhile isWordChar = [] :=
      take_nil_of_head_pres (scan1_head l) h1
    simp only [matchValue, h1b]
  · rw [scan1_cons_bt c l2 h2]
    have hl2 : (scan1 l2).takeWhile isWordChar = [] :=
      take_nil_of_head_pres (scan1_head l2) h2
    have hta : (c :: scan1 l2).takeWhile isWordChar = [c] := by
      rw [List.takeWhile_cons, hc]
      simp [hl2]
    have hda : (c :: scan1 l2).dropWhile isWordChar = scan1 l2 := by
      rw [List.dropWhile_cons_of_pos hc, dropWhile_of_take_nil hl2]
    have hlk : lookaheadQuote (scan1 l2) = true := by
      rw [lookahead_scan1]
      exact h3
    simp only [matchValue, hta, hda, hlk, if_true]

theorem matchValue_none_scan2 {l : List Char} (h : matchValue l = none) :
    matchValue (scan2 l) = none := by
  rcases matchValue_none_inv h with h1 | ⟨c, l2, rfl, hc, h2, h3⟩
  · have h1b : (scan2 l).takeWhile isWordChar = [] :=
      take_nil_of_head_pres (scan2_head l) h1
    simp only [matchValue, h1b]
  · rw [scan2_cons_bt c l2 hc h2 h3]
    have hl2 : (scan2 l2).takeWhile isWordChar = [] :=
      take_nil_of_head_pres (scan2_head l2) h2
    have hta : (c :: scan2 l2).takeWhile isWordChar = [c] := by
      rw [List.takeWhile_cons, hc]
      simp [hl2]
    have hda : (c :: scan2 l2).dropWhile isWordChar = scan2 l2 := by
      rw [List.dropWhile_cons_of_pos hc, dropWhile_of_take_nil hl2]
    have hlk : lookaheadQuote (scan2 l2) = true := by
      rw [lookahead_scan2]
      exact h3
    simp only [matchValue, hta, hda, hlk, if_true]

theorem scan1_eq_cons (X : List Char) : scan1 ('=' :: X) = '=' :: scan1 X :=
  scan1_cons_nostrip (stripSpaceLit_none_of_head (by decide))

theorem scan2_eq_cons (X : List Char) : scan2 ('=' :: X) = '=' :: scan2 X :=
  scan2_cons_nonword (by decide)

/-- A failed `matchAfterKey` keeps failing after rescanning by a pass that
preserves heads, whitespace runs and value-match failure. -/
theorem matchAfterKey_none_pres {f : List Char → List Char}
    (hnil : f [] = [])
    (hhead : ∀ l, (f l).head? = l.head?)
    (hdrop : ∀ l, (f l).dropWhile isSpaceJS = f (l.dropWhile isSpaceJS))
    (hconsEq : ∀ X, f ('=' :: X) = '=' :: f X)
    (hmv : ∀ l, matchValue l = none → matchValue (f l) = none)
    {m : List Char} (h : matchAfterKey m = none) : matchAfterKey (f m) = none := by
  simp only [matchAfterKey] at h ⊢
  rw [hdrop]
  cases hd : m.dropWhile isSpaceJS with
  | nil => rw [hnil]
  | cons c r =>
    by_cases hc : c = '='
    · subst hc
      rw [hd] at h
      simp only [] at h
      have hmvr : matchValue (r.dropWhile isSpaceJS) = none := by
        rcases hmm : matchValue (r.dropWhile isSpaceJS) with _ | q
        · rfl
        · obtain ⟨v0, rest0⟩ := q
          rw [hmm] at h
          simp at h
      rw [hconsEq]
      simp only []
      rw [hdrop, hmv _ hmvr]
    · cases hfc : f (c :: r) with
      | nil => rfl
      | cons d r2 =>
        have hdc : d = c := by
          have hh := hhead (c :: r)
          rw [hfc] at hh
          injection hh with h1
        subst hdc
        split
        · rename_i heq
          rw [List.cons.injEq] at heq
          exact absurd heq.1 hc
        · rfl

theorem matchAfterKey_none_scan1 {m : List Char} (h : matchAfterKey m = none) :
    matchAfterKey (scan1 m) = none :=
  matchAfterKey_none_pres scan1_nil scan1_head dropWhile_space_scan1 scan1_eq_cons
    (fun _ h2 => matchValue_none_scan1 h2) h

theorem matchAfterKey_none_scan2 {m : List Char} (h : matchAfterKey m = none) :
    matchAfterKey (scan2 m) = none :=
  matchAfterKey_none_pres scan2_nil scan2_head dropWhile_space_scan2 scan2_eq_cons
    (fun _ h2 => matchValue_none_scan2 h2) h

theorem scan1_quote_cons (X : List Char) : scan1 ('"' :: X) = '"' :: scan1 X :=
  scan1_cons_nostrip (stripSpaceLit_none_of_head (by decide))

theorem scan2_quote_cons (X : List Char) : scan2 ('"' :: X) = '"' :: scan2 X :=
  scan2_cons_nonword (by decide)

/-- The first scan walks a word run that does not end in the literal
`space`; the following input may be anything that starts with a non-word
character. -/
theorem scan1_word_prefix_nosp (w E : List Char)
    (hwAll : ∀ c ∈ w, isWordChar c = true)
    (hnosp : ¬ spaceLit <:+ w)
    (hE : E.takeWhile isWordChar = []) :
    scan1 (w ++ E) = w ++ scan1 E := by
  induction w with
  | nil => simp
  | cons c w2 ih =>
    have hwAll2 : ∀ c ∈ w2, isWordChar c = true := fun d hd => hwAll d (by simp [hd])
    have hnosp2 : ¬ spaceLit <:+ w2 :=
      fun hsp => hnosp (hsp.trans (List.suffix_cons c w2))
    rw [List.cons_append]
    cases hs : stripSpaceLit (c :: (w2 ++ E)) with
    | none =>
      rw [scan1_cons_nostrip hs, ih hwAll2 hnosp2]
      simp
    | some l5 =>
      have heq := stripSpaceLit_eq_some hs
      have hcs : c = 's' := by
        rw [List.cons.injEq] at heq
        exact heq.1
      have heq2 : w2 ++ E = 'p' :: 'a' :: 'c' :: 'e' :: l5 := by
        rw [List.cons.injEq] at heq
        exact heq.2
      obtain ⟨wa, hwa, hea⟩ := peel_word hE (by decide) heq2
      have hwaAll : ∀ c ∈ wa, isWordChar c = true :=
        fun d hd => hwAll2 d (by simp [hwa, hd])
      obtain ⟨wb, hwb, heb⟩ := peel_word hE (by decide) hea
      have hwbAll : ∀ c ∈ wb, isWordChar c = true :=
        fun d hd => hwaAll d (by simp [hwb, hd])
      obtain ⟨wc, hwc, hec⟩ := peel_word hE (by decide) heb
      have hwcAll : ∀ c ∈ wc, isWordChar c = true :=
        fun d hd => hwbAll d (by simp [hwc, hd])
      obtain ⟨wd0, hwd, hed⟩ := peel_word hE (by decide) hec
      have hwdAll : ∀ c ∈ wd0, isWordChar c = true :=
        fun d hd => hwcAll d (by simp [hwd, hd])
      cases wd0 with
      | nil =>
        exfalso
        apply hnosp
        rw [hcs, hwa, hwb, hwc, hwd]
        exact List.suffix_refl _
      | cons d w3 =>
        have hd : isWordChar d = true := hwdAll d (by simp)
        have hmak : matchAfterKey l5 = none := by
          rw [← hed, List.cons_append]
          exact matchAfterKey_none_of_head (word_not_space hd) (word_ne_eq hd)
        rw [scan1_cons_nomak hs hmak, ih hwAll2 hnosp2]
        simp

/-- The first scan walks a word run that ends in the literal `space`,
stopping right before that literal: no occurrence of the pattern can start
strictly inside the run, because the literal `space` does not overlap
itself and a word character follows every interior occurrence. -/
theorem scan1_run_space (V0 F : List Char)
    (hV0 : ∀ c ∈ V0, isWordChar c = true) :
    scan1 (V0 ++ (spaceLit ++ F)) = V0 ++ scan1 (spaceLit ++ F) := by
  induction V0 with
  | nil => simp
  | cons c V1 ih =>
    have hV1 : ∀ c ∈ V1, isWordChar c = true := fun d hd => hV0 d (by simp [hd])
    rw [List.cons_append]
    cases hs : stripSpaceLit (c :: (V1 ++ (spaceLit ++ F))) with
    | none =>
      rw [scan1_cons_nostrip hs, ih hV1]
      simp
    | some l5 =>
      have heq := stripSpaceLit_eq_some hs
      have heq2 : V1 ++ (spaceLit ++ F) = 'p' :: 'a' :: 'c' :: 'e' :: l5 := by
        rw [List.cons.injEq] at heq
        exact heq.2
      rcases V1 with _ | ⟨d1, V2⟩
      · exfalso
        rw [List.nil_append] at heq2
        simp only [spaceLit, List.cons_append, List.cons.injEq] at heq2
        exact absurd heq2.1 (by decide)
      · rw [List.cons_append, List.cons.injEq] at heq2
        obtain ⟨hd1, heq3⟩ := heq2
        rcases V2 with _ | ⟨d2, V3⟩
        · exfalso
          rw [List.nil_append] at heq3
          simp only [spaceLit, List.cons_append, List.cons.injEq] at heq3
          exact absurd heq3.1 (by decide)
        · rw [List.cons_append, List.cons.injEq] at heq3
          obtain ⟨hd2, heq4⟩ := heq3
          rcases V3 with _ | ⟨d3, V4⟩
          · exfalso
            rw [List.nil_append] at heq4
            simp only [spaceLit, List.cons_append, List.cons.injEq] at heq4
            exact absurd heq4.1 (by decide)
          · rw [List.cons_append, List.cons.injEq] at heq4
            obtain ⟨hd3, heq5⟩ := heq4
            rcases V4 with _ | ⟨d4, V5⟩
            · exfalso
              rw [List.nil_append] at heq5
              simp only [spaceLit, List.cons_append, List.cons.injEq] at heq5
              exact absurd heq5.1 (by decide)
            · rw [List.cons_append, List.cons.injEq] at heq5
              obtain ⟨hd4, heq6⟩ := heq5
              have hmak : matchAfterKey l5 = none := by
                rw [← heq6]
                rcases V5 with _ | ⟨d5, V6⟩
                · rw [List.nil_append]
                  simp only [spaceLit, List.cons_append]
                  exact matchAfterKey_none_of_head (by decide) (by decide)
                · rw [List.cons_append]
                  have hd5 : isWordChar d5 = true := hV1 d5 (by simp)
                  exact matchAfterKey_none_of_head (word_not_space hd5)
                    (word_ne_eq hd5)
              rw [scan1_cons_nomak hs hmak, ih hV1]
              simp

theorem scan1_after_key (w1 w2 X : List Char)
    (hw1 : ∀ c ∈ w1, isSpaceJS c = true) (hw2 : ∀ c ∈ w2, isSpaceJS c = true) :
    scan1 (w1 ++ '=' :: (w2 ++ X)) = w1 ++ '=' :: (w2 ++ scan1 X) := by
  rw [scan1_space_pfx _ hw1, scan1_eq_cons, scan1_space_pfx _ hw2]

theorem scan2_after_key (w1 w2 X : List Char)
    (hw1 : ∀ c ∈ w1, isSpaceJS c = true) (hw2 : ∀ c ∈ w2, isSpaceJS c = true) :
    scan2 (w1 ++ '=' :: (w2 ++ X)) = w1 ++ '=' :: (w2 ++ scan2 X) := by
  rw [scan2_space_pfx _ hw1, scan2_eq_cons, scan2_space_pfx _ hw2]

/-- The first scan walks a rewritten block `K="v"` and continues after it. -/
theorem scan1_quoted_walk (K v z : List Char)
    (hK : ∀ c ∈ K, isWordChar c = true) (hv : ∀ c ∈ v, isWordChar c = true) :
    scan1 (K ++ ('=' :: '"' :: (v ++ '"' :: z))) =
      K ++ ('=' :: '"' :: (v ++ '"' :: scan1 z)) := by
  rw [scan1_word_pfx K _ hK (takeWhile_nil_of_head (by decide))
    (matchAfterKey_eq_quote _), scan1_eq_cons, scan1_quote_cons,
    scan1_word_pfx v _ hv (takeWhile_nil_of_head (by decide))
      (matchAfterKey_none_of_head (by decide) (by decide)),
    scan1_quote_cons]

/-- The second scan walks a rewritten block `K="v"` and continues after it. -/
theorem scan2_quoted_walk (K v z : List Char)
    (hK : ∀ c ∈ K, isWordChar c = true) (hv : ∀ c ∈ v, isWordChar c = true) :
    scan2 (K ++ ('=' :: '"' :: (v ++ '"' :: z))) =
      K ++ ('=' :: '"' :: (v ++ '"' :: scan2 z)) := by
  rw [scan2_word_pfx K _ hK (takeWhile_nil_of_head (by decide))
    (matchAfterKey_eq_quote _), scan2_eq_cons, scan2_quote_cons,
    scan2_word_pfx v _ hv (takeWhile_nil_of_head (by decide))
      (matchAfterKey_none_of_head (by decide) (by decide)),
    scan2_quote_cons]

/-- The first scan never changes the first five characters: a rewrite site
begins with the literal `space`, which the rewrite emits unchanged. -/
theorem scan1_take : ∀ (l : List Char) (k : Nat), k ≤ 5 →
    (scan1 l).take k = l.take k := by
  intro l
  induction l with
  | nil =>
    intro k hk
    rfl
  | cons c t ih =>
    intro k hk
    cases hs : stripSpaceLit (c :: t) with
    | none =>
      rw [scan1_cons_nostrip hs]
      cases k with
      | zero => rfl
      | succ k2 => rw [List.take_succ_cons, List.take_succ_cons, ih k2 (by omega)]
    | some l5 =>
      have heq : c :: t = spaceLit ++ l5 := by
        rw [stripSpaceLit_eq_some hs]
        rfl
      cases hm : matchAfterKey l5 with
      | none =>
        rw [scan1_cons_nomak hs hm]
        cases k with
        | zero => rfl
        | succ k2 => rw [List.take_succ_cons, List.take_succ_cons, ih k2 (by omega)]
      | some q =>
        obtain ⟨w1, w2, v, rest⟩ := q
        rw [scan1_cons_match hs hm, heq]
        have h5 : spaceLit.length = 5 := rfl
        split
        · simp [List.take_append_eq_append_take, Nat.sub_eq_zero_of_le hk, h5]
        · simp [List.take_append_eq_append_take, Nat.sub_eq_zero_of_le hk, h5]

/-- The first scan on the literal `space` followed by non-matching input. -/
theorem scan1_space_walk (X : List Char) (hm : matchAfterKey X = none) :
    scan1 (spaceLit ++ X) = spaceLit ++ scan1 X := by
  show scan1 ('s' :: 'p' :: 'a' :: 'c' :: 'e' :: X) = spaceLit ++ scan1 X
  rw [scan1_cons_nomak (stripSpaceLit_cons5 _) hm,
    scan1_cons_nostrip (stripSpaceLit_none_of_head (by decide)),
    scan1_cons_nostrip (stripSpaceLit_none_of_head (by decide)),
    scan1_cons_nostrip (stripSpaceLit_none_of_head (by decide)),
    scan1_cons_nostrip (stripSpaceLit_none_of_head (by decide))]
  rfl

/-- The first scan performs a verbatim (non-reserved) match right after the
literal `space`. -/
theorem scan1_space_block (w1 w2 v z : List Char)
    (hm : matchAfterKey (w1 ++ '=' :: (w2 ++ (v ++ z))) = some (w1, w2, v, z))
    (hres : isReserved v = false) :
    scan1 (spaceLit ++ (w1 ++ '=' :: (w2 ++ (v ++ z)))) =
      spaceLit ++ (w1 ++ '=' :: (w2 ++ (v ++ scan1 z))) := by
  show scan1 ('s' :: 'p' :: 'a' :: 'c' :: 'e' :: (w1 ++ '=' :: (w2 ++ (v ++ z)))) =
    spaceLit ++ (w1 ++ '=' :: (w2 ++ (v ++ scan1 z)))
  rw [scan1_cons_match (stripSpaceLit_cons5 _) hm, if_neg (by simp [hres])]
  simp [spaceLit]

/-- The first scan performs a reserved (rewriting) match right after the
literal `space`. -/
theorem scan1_space_block_res (w1 w2 v z : List Char)
    (hm : matchAfterKey (w1 ++ '=' :: (w2 ++ (v ++ z))) = some (w1, w2, v, z))
    (hres : isReserved v = true) :
    scan1 (spaceLit ++ (w1 ++ '=' :: (w2 ++ (v ++ z)))) =
      spaceLit ++ ('=' :: '"' :: (v ++ '"' :: scan1 z)) := by
  show scan1 ('s' :: 'p' :: 'a' :: 'c' :: 'e' :: (w1 ++ '=' :: (w2 ++ (v ++ z)))) =
    spaceLit ++ ('=' :: '"' :: (v ++ '"' :: scan1 z))
  rw [scan1_cons_match (stripSpaceLit_cons5 _) hm, if_pos hres]
  simp [spaceLit]

theorem matchAfterKey_arg_take_nil {w1 w2 v z : List Char}
    (hw1 : ∀ c ∈ w1, isSpaceJS c = true) :
    (w1 ++ '=' :: (w2 ++ (v ++ z))).takeWhile isWordChar = [] := by
  cases w1 with
  | nil => exact takeWhile_nil_of_head (by decide)
  | cons a w1b => exact takeWhile_nil_of_head (space_not_word (hw1 a (by simp)))

/-- The second scan performs a verbatim match whose key is the word run
`c :: tw`. -/
theorem scan2_block (c : Char) (tw w1 w2 v z : List Char)
    (hc : isWordChar c = true) (htw : ∀ d ∈ tw, isWordChar d = true)
    (hm : matchAfterKey (w1 ++ '=' :: (w2 ++ (v ++ z))) = some (w1, w2, v, z))
    (hres : isReserved v = false) :
    scan2 ((c :: tw) ++ (w1 ++ '=' :: (w2 ++ (v ++ z)))) =
      (c :: tw) ++ (w1 ++ '=' :: (w2 ++ (v ++ scan2 z))) := by
  obtain ⟨_, hw1, hw2, hvne, hvAll⟩ := matchAfterKey_some_inv hm
  have hE := @matchAfterKey_arg_take_nil w1 w2 v z hw1
  have hdw : (tw ++ (w1 ++ '=' :: (w2 ++ (v ++ z)))).dropWhile isWordChar =
      w1 ++ '=' :: (w2 ++ (v ++ z)) := by
    rw [List.dropWhile_append_of_pos htw, dropWhile_of_take_nil hE]
  have htww : (tw ++ (w1 ++ '=' :: (w2 ++ (v ++ z)))).takeWhile isWordChar = tw := by
    rw [List.takeWhile_append_of_pos htw, hE, List.append_nil]
  have hm2 : matchAfterKey
      ((tw ++ (w1 ++ '=' :: (w2 ++ (v ++ z)))).dropWhile isWordChar) =
      some (w1, w2, v, z) := by
    rw [hdw]
    exact hm
  rw [List.cons_append, scan2_cons_match hc hm2, if_neg (by simp [hres]), htww]
  simp

/-- The second scan performs a reserved (rewriting) match whose key is the
word run `c :: tw`. -/
theorem scan2_block_res (c : Char) (tw w1 w2 v z : List Char)
    (hc : isWordChar c = true) (htw : ∀ d ∈ tw, isWordChar d = true)
    (hm : matchAfterKey (w1 ++ '=' :: (w2 ++ (v ++ z))) = some (w1, w2, v, z))
    (hres : isReserved v = true) :
    scan2 ((c :: tw) ++ (w1 ++ '=' :: (w2 ++ (v ++ z)))) =
      (c :: tw) ++ ('=' :: '"' :: (v ++ '"' :: scan2 z)) := by
  obtain ⟨_, hw1, hw2, hvne, hvAll⟩ := matchAfterKey_some_inv hm
  have hE := @matchAfterKey_arg_take_nil w1 w2 v z hw1
  have hdw : (tw ++ (w1 ++ '=' :: (w2 ++ (v ++ z)))).dropWhile isWordChar =
      w1 ++ '=' :: (w2 ++ (v ++ z)) := by
    rw [List.dropWhile_append_of_pos htw, dropWhile_of_take_nil hE]
  have htww : (tw ++ (w1 ++ '=' :: (w2 ++ (v ++ z)))).takeWhile isWordChar = tw := by
    rw [List.takeWhile_append_of_pos htw, hE, List.append_nil]
  have hm2 : matchAfterKey
      ((tw ++ (w1 ++ '=' :: (w2 ++ (v ++ z)))).dropWhile isWordChar) =
      some (w1, w2, v, z) := by
    rw [hdw]
    exact hm
  rw [List.cons_append, scan2_cons_match hc hm2, if_pos hres, htww]
  simp

/-- The first scan is idempotent (auxiliary, by strong induction on the
input length). -/
theorem scan1_idem_aux : ∀ (n : Nat) (l : List Char), l.length ≤ n →
    scan1 (scan1 l) = scan1 l := by
  intro n
  induction n with
  | zero =>
    intro l hl
    have h0 : l = [] := List.eq_nil_of_length_eq_zero (by omega)
    subst h0
    rfl
  | succ n2 ih =>
    intro l hl
    cases l with
    | nil => rfl
    | cons c t =>
      simp only [List.length_cons] at hl
      cases hs : stripSpaceLit (c :: t) with
      | none =>
        rw [scan1_cons_nostrip hs]
        have hs2 : stripSpaceLit (c :: scan1 t) = none := by
          cases hx : stripSpaceLit (c :: scan1 t) with
          | none => rfl
          | some l5 =>
            exfalso
            have heq := stripSpaceLit_eq_some hx
            have hc : c = 's' := by
              rw [List.cons.injEq] at heq
              exact heq.1
            have ht : scan1 t = 'p' :: 'a' :: 'c' :: 'e' :: l5 := by
              rw [List.cons.injEq] at heq
              exact heq.2
            have ht4 : t.take 4 = ['p', 'a', 'c', 'e'] := by
              rw [← scan1_take t 4 (by omega), ht]
              rfl
            have ht5 : t = 'p' :: 'a' :: 'c' :: 'e' :: t.drop 4 := by
              conv_lhs => rw [← List.take_append_drop 4 t]
              rw [ht4]
              rfl
            rw [hc, ht5, stripSpaceLit_cons5] at hs
            simp at hs
        rw [scan1_cons_nostrip hs2, ih t (by omega)]
      | some l5 =>
        have heq := stripSpaceLit_eq_some hs
        have hc : c = 's' := by
          rw [List.cons.injEq] at heq
          exact heq.1
        have ht : t = 'p' :: 'a' :: 'c' :: 'e' :: l5 := by
          rw [List.cons.injEq] at heq
          exact heq.2
        cases hm : matchAfterKey l5 with
        | none =>
          rw [scan1_cons_nomak hs hm]
          have hst : scan1 t = 'p' :: 'a' :: 'c' :: 'e' :: scan1 l5 := by
            rw [ht, scan1_cons_nostrip (stripSpaceLit_none_of_head (by decide)),
              scan1_cons_nostrip (stripSpaceLit_none_of_head (by decide)),
              scan1_cons_nostrip (stripSpaceLit_none_of_head (by decide)),
              scan1_cons_nostrip (stripSpaceLit_none_of_head (by decide))]
          have hs2 : stripSpaceLit (c :: scan1 t) = some (scan1 l5) := by
            rw [hc, hst]
            exact stripSpaceLit_cons5 _
          rw [scan1_cons_nomak hs2 (matchAfterKey_none_scan1 hm), ih t (by omega)]
        | some q =>
          obtain ⟨w1, w2, v, rest⟩ := q
          obtain ⟨hl5, hw1, hw2, hvne, hvAll⟩ := matchAfterKey_some_inv hm
          have hbound : rest.length ≤ n2 := by
            have hb1 := stripSpaceLit_rest_le hs
            have hb2 := matchAfterKey_rest_length_lt hm
            omega
          rw [scan1_cons_match hs hm]
          by_cases hres : isReserved v = true
          · rw [if_pos hres]
            have e1 : spaceLit ++ '=' :: '"' :: v ++ '"' :: scan1 rest =
                spaceLit ++ ('=' :: '"' :: (v ++ '"' :: scan1 rest)) := by
              simp
            rw [e1, scan1_quoted_walk spaceLit v (scan1 rest) (by decide) hvAll,
              ih rest hbound]
          · have hres2 : isReserved v = false := by simpa using hres
            rw [if_neg hres]
            have e1 : spaceLit ++ w1 ++ '=' :: w2 ++ v ++ scan1 rest =
                spaceLit ++ (w1 ++ '=' :: (w2 ++ (v ++ scan1 rest))) := by
              simp
            rw [e1, scan1_space_block w1 w2 v (scan1 rest)
              (matchAfterKey_replay_scan1 hm) hres2, ih rest hbound]

/-- The first keyword-quoting pass is idempotent. -/
theorem scan1_idem (l : List Char) : scan1 (scan1 l) = scan1 l :=
  scan1_idem_aux l.length l (le_refl _)

/-- The second scan is idempotent (auxiliary). -/
theorem scan2_idem_aux : ∀ (n : Nat) (l : List Char), l.length ≤ n →
    scan2 (scan2 l) = scan2 l := by
  intro n
  induction n with
  | zero =>
    intro l hl
    have h0 : l = [] := List.eq_nil_of_length_eq_zero (by omega)
    subst h0
    rfl
  | succ n2 ih =>
    intro l hl
    cases l with
    | nil => rfl
    | cons c t =>
      simp only [List.length_cons] at hl
      by_cases hw : isWordChar c = true
      · cases hm : matchAfterKey (t.dropWhile isWordChar) with
        | none =>
          rw [scan2_cons_nomak hw hm]
          have htw : ∀ d ∈ t.takeWhile isWordChar, isWordChar d = true :=
            fun d hd => List.mem_takeWhile_imp hd
          have hts : t.takeWhile isWordChar ++ t.dropWhile isWordChar = t :=
            List.takeWhile_append_dropWhile isWordChar t
          have htm : (t.dropWhile isWordChar).takeWhile isWordChar = [] :=
            takeWhile_dropWhile_nil _ _
          have hst : scan2 t =
              t.takeWhile isWordChar ++ scan2 (t.dropWhile isWordChar) := by
            conv_lhs => rw [← hts]
            exact scan2_word_pfx _ _ htw htm hm
          rw [hst]
          have hm2 : matchAfterKey (scan2 (t.dropWhile isWordChar)) = none :=
            matchAfterKey_none_scan2 hm
          have htm2 : (scan2 (t.dropWhile isWordChar)).takeWhile isWordChar = [] :=
            take_nil_of_head_pres (scan2_head _) htm
          have h3 : matchAfterKey ((t.takeWhile isWordChar ++
              scan2 (t.dropWhile isWordChar)).dropWhile isWordChar) = none := by
            rw [List.dropWhile_append_of_pos htw, dropWhile_of_take_nil htm2]
            exact hm2
          rw [scan2_cons_nomak hw h3]
          congr 1
          rw [scan2_word_pfx _ _ htw htm2 hm2]
          have hbound : (t.dropWhile isWordChar).length ≤ n2 := by
            have hb3 : (t.dropWhile isWordChar).length ≤ t.length :=
              (List.dropWhile_sublist _).length_le
            omega
          rw [ih (t.dropWhile isWordChar) hbound]
        | some q =>
          obtain ⟨w1, w2, v, rest⟩ := q
          obtain ⟨hMeq, hw1, hw2, hvne, hvAll⟩ := matchAfterKey_some_inv hm
          have hbound : rest.length ≤ n2 := by
            have hb2 := matchAfterKey_rest_length_lt hm
            have hb3 : (t.dropWhile isWordChar).length ≤ t.length :=
              (List.dropWhile_sublist _).length_le
            omega
          have hKall : ∀ d ∈ c :: t.takeWhile isWordChar, isWordChar d = true := by
            intro d hd
            rcases List.mem_cons.mp hd with h1 | h1
            · subst h1
              exact hw
            · exact List.mem_takeWhile_imp h1
          have htwAll : ∀ d ∈ t.takeWhile isWordChar, isWordChar d = true :=
            fun d hd => List.mem_takeWhile_imp hd
          rw [scan2_cons_match hw hm]
          by_cases hres : isReserved v = true
          · rw [if_pos hres]
            have e1 : (c :: t.takeWhile isWordChar) ++ '=' :: '"' :: v ++
                '"' :: scan2 rest = (c :: t.takeWhile isWordChar) ++
                ('=' :: '"' :: (v ++ '"' :: scan2 rest)) := by
              simp
            rw [e1, scan2_quoted_walk _ v (scan2 rest) hKall hvAll, ih rest hbound]
          · have hres2 : isReserved v = false := by simpa using hres
            rw [if_neg hres]
            have e1 : (c :: t.takeWhile isWordChar) ++ w1 ++ '=' :: w2 ++ v ++
                scan2 rest = (c :: t.takeWhile isWordChar) ++
                (w1 ++ '=' :: (w2 ++ (v ++ scan2 rest))) := by
              simp
            rw [e1, scan2_block c (t.takeWhile isWordChar) w1 w2 v (scan2 rest)
              hw htwAll (matchAfterKey_replay_scan2 hm) hres2, ih rest hbound]
      · have hw2 : isWordChar c = false := by simpa using hw
        rw [scan2_cons_nonword hw2]
        rw [scan2_cons_nonword hw2, ih t (by omega)]

/-- The second keyword-quoting pass is idempotent. -/
theorem scan2_idem (l : List Char) : scan2 (scan2 l) = scan2 l :=
  scan2_idem_aux l.length l (le_refl _)

/-- A reserved rewrite block can never equal the verbatim text it
replaces: the quote after the equals sign clashes with whitespace or with
the word-character value. -/
theorem eq_quote_absurd {w1 w2 v X Y : List Char}
    (hw1 : ∀ c ∈ w1, isSpaceJS c = true) (hw2 : ∀ c ∈ w2, isSpaceJS c = true)
    (hv : v ≠ []) (hvAll : ∀ c ∈ v, isWordChar c = true)
    (heq : '=' :: '"' :: Y = w1 ++ '=' :: (w2 ++ (v ++ X))) : False := by
  cases w1 with
  | cons a w1b =>
    rw [List.cons_append] at heq
    injection heq with h1 _
    have h2 := hw1 a (by simp)
    rw [← h1] at h2
    exact absurd h2 (by decide)
  | nil =>
    rw [List.nil_append] at heq
    injection heq with _ h2
    cases w2 with
    | cons b w2b =>
      rw [List.cons_append] at h2
      injection h2 with h3 _
      have h4 := hw2 b (by simp)
      rw [← h3] at h4
      exact absurd h4 (by decide)
    | nil =>
      rw [List.nil_append] at h2
      cases v with
      | nil => exact absurd rfl hv
      | cons d v2 =>
        rw [List.cons_append] at h2
        injection h2 with h4 _
        have h5 := hvAll d (by simp)
        rw [← h4] at h5
        exact absurd h5 (by decide)

/-- Text that continues with `=` after optional whitespace fails the quote
lookahead. -/
theorem look_after_key (w1 X : List Char) (hw1 : ∀ c ∈ w1, isSpaceJS c = true) :
    lookaheadQuote (w1 ++ '=' :: X) = false := by
  rw [lookahead_eq_head, List.dropWhile_append_of_pos hw1,
    dropWhile_cons_of_head (by decide), List.head?_cons]
  decide

theorem look_quote_block (X : List Char) :
    lookaheadQuote ('=' :: X) = false := by
  have h := look_after_key [] X (by simp)
  simpa using h

/-- The residue states of the second scan inside a fixed point of the
first scan: a tail of a verbatim first-scan match, re-entered at or after
its equals sign, followed by the fixed continuation. -/
def Rform (m : List Char) : Prop :=
  ∃ s1 w2 V q, m = s1 ++ '=' :: (w2 ++ (V ++ q)) ∧
    (∀ c ∈ s1, isSpaceJS c = true) ∧ (∀ c ∈ w2, isSpaceJS c = true) ∧
    V ≠ [] ∧ (∀ c ∈ V, isWordChar c = true) ∧ isReserved V = false ∧
    matchValue (V ++ q) = some (V, q) ∧ scan1 q = q

/-- From a fixed word-run-plus-continuation, the continuation is itself
fixed or is a residue state. -/
theorem derive_St (v q : List Char) (hvAll : ∀ c ∈ v, isWordChar c = true)
    (hmv : matchValue (v ++ q) = some (v, q))
    (hfix : scan1 (v ++ q) = v ++ q) :
    scan1 q = q ∨ Rform q := by
  rcases matchValue_shape hmv with ⟨_, hv, _, hr, hl⟩ |
    ⟨g, dw, hq, hg, _, hv, _, hdw, hl⟩
  · by_cases hvsp : spaceLit <:+ v
    · obtain ⟨V0, hV0⟩ := hvsp
      have hV0all : ∀ c ∈ V0, isWordChar c = true := by
        intro d hd
        apply hvAll
        rw [← hV0]
        exact List.mem_append_left _ hd
      cases hmq : matchAfterKey q with
      | none =>
        left
        rw [← hV0] at hfix
        have hb : (V0 ++ spaceLit) ++ q = V0 ++ (spaceLit ++ q) := by simp
        rw [hb, scan1_run_space V0 q hV0all, scan1_space_walk q hmq] at hfix
        exact List.append_cancel_left (List.append_cancel_left hfix)
      | some p =>
        obtain ⟨w1b, w2b, vb, qb⟩ := p
        obtain ⟨hqe, hw1b, hw2b, hvbne, hvbAll⟩ := matchAfterKey_some_inv hmq
        have hqe2 : q = w1b ++ '=' :: (w2b ++ (vb ++ qb)) := by
          rw [hqe]
          simp
        have hmq2 : matchAfterKey (w1b ++ '=' :: (w2b ++ (vb ++ qb))) =
            some (w1b, w2b, vb, qb) := by
          rw [← hqe2]
          exact hmq
        rw [← hV0] at hfix
        have hb : (V0 ++ spaceLit) ++ q = V0 ++ (spaceLit ++ q) := by simp
        rw [hb, scan1_run_space V0 q hV0all] at hfix
        by_cases hres : isReserved vb = true
        · exfalso
          rw [hqe2, scan1_space_block_res w1b w2b vb qb hmq2 hres] at hfix
          have h2 := List.append_cancel_left hfix
          have h3 := List.append_cancel_left h2
          exact eq_quote_absurd hw1b hw2b hvbne hvbAll h3
        · have hres2 : isReserved vb = false := by simpa using hres
          right
          rw [hqe2, scan1_space_block w1b w2b vb qb hmq2 hres2] at hfix
          have h2 := List.append_cancel_left hfix
          have h3 := List.append_cancel_left h2
          have h4 := List.append_cancel_left h3
          have h5 : w2b ++ (vb ++ scan1 qb) = w2b ++ (vb ++ qb) := by
            injection h4
          have h6 := List.append_cancel_left (List.append_cancel_left h5)
          exact ⟨w1b, w2b, vb, qb, hqe2, hw1b, hw2b, hvbne, hvbAll, hres2,
            matchAfterKey_inner hmq, h6⟩
    · left
      rw [scan1_word_prefix_nosp v q hvAll hvsp hr] at hfix
      exact List.append_cancel_left hfix
  · subst hq
    left
    have hmakdw : matchAfterKey dw = none := mak_none_of_lookahead hl
    have hallg : ∀ c ∈ v ++ [g], isWordChar c = true := by
      intro d hd
      rcases List.mem_append.mp hd with h1 | h1
      · exact hvAll d h1
      · rw [List.mem_singleton.mp h1]
        exact hg
    have hb : v ++ g :: dw = (v ++ [g]) ++ dw := by simp
    rw [hb, scan1_word_pfx _ _ hallg hdw hmakdw] at hfix
    have hdwfix : scan1 dw = dw := List.append_cancel_left hfix
    rw [scan1_cons_bt g dw hdw, hdwfix]

/-- Walking the first scan over a matched value followed by the rescanned
continuation: the walk either re-does the same verbatim match or advances
through everything, using the induction hypothesis of the main fixedness
theorem for the continuation. -/
theorem scan1_vwalk (n2 : Nat)
    (ih : ∀ r : List Char, r.length ≤ n2 →
      (scan1 r = r → scan1 (scan2 r) = scan2 r) ∧
      (Rform r → scan1 (scan2 r) = scan2 r ∧
        scan1 (spaceLit ++ scan2 r) = spaceLit ++ scan2 r))
    (v rest : List Char) (hrl : rest.length ≤ n2)
    (hvAll : ∀ c ∈ v, isWordChar c = true)
    (hmv : matchValue (v ++ rest) = some (v, rest))
    (hfix : scan1 (v ++ rest) = v ++ rest) :
    scan1 (v ++ scan2 rest) = v ++ scan2 rest := by
  rcases matchValue_shape hmv with ⟨_, hv, _, hr, hl⟩ |
    ⟨g, dw, hq, hg, _, hv, _, hdw, hl⟩
  · by_cases hvsp : spaceLit <:+ v
    · obtain ⟨V0, hV0⟩ := hvsp
      have hV0all : ∀ c ∈ V0, isWordChar c = true := by
        intro d hd
        apply hvAll
        rw [← hV0]
        exact List.mem_append_left _ hd
      cases hmq : matchAfterKey rest with
      | none =>
        have hrfix : scan1 rest = rest := by
          rw [← hV0] at hfix
          have hb : (V0 ++ spaceLit) ++ rest = V0 ++ (spaceLit ++ rest) := by simp
          rw [hb, scan1_run_space V0 rest hV0all, scan1_space_walk rest hmq] at hfix
          exact List.append_cancel_left (List.append_cancel_left hfix)
        have hP := (ih rest hrl).1 hrfix
        rw [← hV0]
        have hb2 : (V0 ++ spaceLit) ++ scan2 rest = V0 ++ (spaceLit ++ scan2 rest) := by
          simp
        rw [hb2, scan1_run_space V0 _ hV0all,
          scan1_space_walk _ (matchAfterKey_none_scan2 hmq), hP]
      | some p =>
        obtain ⟨w1b, w2b, vb, qb⟩ := p
        obtain ⟨hqe, hw1b, hw2b, hvbne, hvbAll⟩ := matchAfterKey_some_inv hmq
        have hqe2 : rest = w1b ++ '=' :: (w2b ++ (vb ++ qb)) := by
          rw [hqe]
          simp
        have hmq2 : matchAfterKey (w1b ++ '=' :: (w2b ++ (vb ++ qb))) =
            some (w1b, w2b, vb, qb) := by
          rw [← hqe2]
          exact hmq
        have hfix2 := hfix
        rw [← hV0] at hfix2
        have hb : (V0 ++ spaceLit) ++ rest = V0 ++ (spaceLit ++ rest) := by simp
        rw [hb, scan1_run_space V0 rest hV0all] at hfix2
        by_cases hres : isReserved vb = true
        · exfalso
          rw [hqe2, scan1_space_block_res w1b w2b vb qb hmq2 hres] at hfix2
          exact eq_quote_absurd hw1b hw2b hvbne hvbAll
            (List.append_cancel_left (List.append_cancel_left hfix2))
        · have hres2 : isReserved vb = false := by simpa using hres
          have hRf : Rform rest := by
            rw [hqe2, scan1_space_block w1b w2b vb qb hmq2 hres2] at hfix2
            have h3 := List.append_cancel_left (List.append_cancel_left hfix2)
            have h4 := List.append_cancel_left h3
            have h5 : w2b ++ (vb ++ scan1 qb) = w2b ++ (vb ++ qb) := by
              injection h4
            exact ⟨w1b, w2b, vb, qb, hqe2, hw1b, hw2b, hvbne, hvbAll, hres2,
              matchAfterKey_inner hmq,
              List.append_cancel_left (List.append_cancel_left h5)⟩
          have hGuard := ((ih rest hrl).2 hRf).2
          rw [← hV0]
          have hb2 : (V0 ++ spaceLit) ++ scan2 rest =
              V0 ++ (spaceLit ++ scan2 rest) := by simp
          rw [hb2, scan1_run_space V0 _ hV0all, hGuard]
    · have hP : scan1 (scan2 rest) = scan2 rest := by
        rcases derive_St v rest hvAll hmv hfix with h1 | h1
        · exact (ih rest hrl).1 h1
        · exact ((ih rest hrl).2 h1).1
      rw [scan1_word_prefix_nosp v (scan2 rest) hvAll hvsp
        (take_nil_of_head_pres (scan2_head rest) hr), hP]
  · subst hq
    have hdwl : dw.length ≤ n2 := by
      simp only [List.length_cons] at hrl
      omega
    have hdwfix : scan1 dw = dw := by
      have hallg : ∀ c ∈ v ++ [g], isWordChar c = true := by
        intro d hd
        rcases List.mem_append.mp hd with h1 | h1
        · exact hvAll d h1
        · rw [List.mem_singleton.mp h1]
          exact hg
      have hb : v ++ g :: dw = (v ++ [g]) ++ dw := by simp
      rw [hb, scan1_word_pfx _ _ hallg hdw (mak_none_of_lookahead hl)] at hfix
      exact List.append_cancel_left hfix
    have hPdw := (ih dw hdwl).1 hdwfix
    rw [scan2_cons_bt g dw hg hdw hl]
    have hallg : ∀ c ∈ v ++ [g], isWordChar c = true := by
      intro d hd
      rcases List.mem_append.mp hd with h1 | h1
      · exact hvAll d h1
      · rw [List.mem_singleton.mp h1]
        exact hg
    have hb2 : v ++ g :: scan2 dw = (v ++ [g]) ++ scan2 dw := by simp
    rw [hb2, scan1_word_pfx _ _ hallg
      (take_nil_of_head_pres (scan2_head dw) hdw)
      (mak_none_of_lookahead (by rw [lookahead_scan2]; exact hl)), hPdw]

/-- The fixed-point case of the main theorem: if the first scan fixes `m`,
it also fixes `scan2 m`. -/
theorem scan1_fix_case (n2 : Nat)
    (ih : ∀ r : List Char, r.length ≤ n2 →
      (scan1 r = r → scan1 (scan2 r) = scan2 r) ∧
      (Rform r → scan1 (scan2 r) = scan2 r ∧
        scan1 (spaceLit ++ scan2 r) = spaceLit ++ scan2 r))
    (m : List Char) (hm : m.length ≤ n2 + 1) (hfix : scan1 m = m) :
    scan1 (scan2 m) = scan2 m := by
  cases m with
  | nil => rfl
  | cons c t =>
    simp only [List.length_cons] at hm
    by_cases hw : isWordChar c = true
    · have htwAll : ∀ d ∈ t.takeWhile isWordChar, isWordChar d = true :=
        fun d hd => List.mem_takeWhile_imp hd
      have hKall : ∀ d ∈ c :: t.takeWhile isWordChar, isWordChar d = true := by
        intro d hd
        rcases List.mem_cons.mp hd with h1 | h1
        · subst h1
          exact hw
        · exact htwAll d h1
      have htm : (t.dropWhile isWordChar).takeWhile isWordChar = [] :=
        takeWhile_dropWhile_nil _ _
      have hts : t.takeWhile isWordChar ++ t.dropWhile isWordChar = t :=
        List.takeWhile_append_dropWhile _ _
      have hmb : c :: t = (c :: t.takeWhile isWordChar) ++ t.dropWhile isWordChar := by
        rw [List.cons_append, hts]
      have htmL : (t.dropWhile isWordChar).length ≤ n2 := by
        have hb3 : (t.dropWhile isWordChar).length ≤ t.length :=
          (List.dropWhile_sublist _).length_le
        omega
      cases hmk : matchAfterKey (t.dropWhile isWordChar) with
      | none =>
        have h1 : scan1 (c :: t) =
            (c :: t.takeWhile isWordChar) ++ scan1 (t.dropWhile isWordChar) := by
          conv_lhs => rw [hmb]
          exact scan1_word_pfx _ _ hKall htm hmk
        have htmfix : scan1 (t.dropWhile isWordChar) = t.dropWhile isWordChar := by
          have h2 := hfix
          rw [h1, hmb] at h2
          exact List.append_cancel_left h2
        have htmP := (ih _ htmL).1 htmfix
        have hs2 : scan2 (c :: t) =
            (c :: t.takeWhile isWordChar) ++ scan2 (t.dropWhile isWordChar) := by
          conv_lhs => rw [hmb]
          exact scan2_word_pfx _ _ hKall htm hmk
        rw [hs2, scan1_word_pfx _ _ hKall
          (take_nil_of_head_pres (scan2_head _) htm)
          (matchAfterKey_none_scan2 hmk), htmP]
      | some p =>
        obtain ⟨w1, w2, v, rest⟩ := p
        obtain ⟨hMeq, hw1s, hw2s, hvne, hvAll⟩ := matchAfterKey_some_inv hmk
        have hMeq2 : t.dropWhile isWordChar = w1 ++ '=' :: (w2 ++ (v ++ rest)) := by
          rw [hMeq]
          simp
        have hmk2 : matchAfterKey (w1 ++ '=' :: (w2 ++ (v ++ rest))) =
            some (w1, w2, v, rest) := by
          rw [← hMeq2]
          exact hmk
        have hrestL : rest.length ≤ n2 := by
          have hb2 := matchAfterKey_rest_length_lt hmk
          have hb3 : (t.dropWhile isWordChar).length ≤ t.length :=
            (List.dropWhile_sublist _).length_le
          omega
        have hmb2 : c :: t = (c :: t.takeWhile isWordChar) ++
            (w1 ++ '=' :: (w2 ++ (v ++ rest))) := by
          rw [hmb, hMeq2]
        by_cases hKsp : spaceLit <:+ (c :: t.takeWhile isWordChar)
        · obtain ⟨K0, hK0⟩ := hKsp
          have hK0all : ∀ d ∈ K0, isWordChar d = true := by
            intro d hd
            apply hKall
            rw [← hK0]
            exact List.mem_append_left _ hd
          have hmb3 : c :: t = K0 ++ (spaceLit ++
              (w1 ++ '=' :: (w2 ++ (v ++ rest)))) := by
            rw [hmb2, ← hK0]
            simp
          by_cases hres : isReserved v = true
          · exfalso
            have h1 := hfix
            rw [hmb3, scan1_run_space K0 _ hK0all,
              scan1_space_block_res w1 w2 v rest hmk2 hres] at h1
            exact eq_quote_absurd hw1s hw2s hvne hvAll
              (List.append_cancel_left (List.append_cancel_left h1))
          · have hres2 : isReserved v = false := by simpa using hres
            have hrestfix : scan1 rest = rest := by
              have h1 := hfix
              rw [hmb3, scan1_run_space K0 _ hK0all,
                scan1_space_block w1 w2 v rest hmk2 hres2] at h1
              have h3 := List.append_cancel_left (List.append_cancel_left h1)
              have h4 := List.append_cancel_left h3
              have h5 : w2 ++ (v ++ scan1 rest) = w2 ++ (v ++ rest) := by
                injection h4
              exact List.append_cancel_left (List.append_cancel_left h5)
            have hrestP := (ih rest hrestL).1 hrestfix
            have hs2 : scan2 (c :: t) = (c :: t.takeWhile isWordChar) ++
                (w1 ++ '=' :: (w2 ++ (v ++ scan2 rest))) := by
              conv_lhs => rw [hmb2]
              exact scan2_block c _ w1 w2 v rest hw htwAll hmk2 hres2
            have hb4 : (c :: t.takeWhile isWordChar) ++
                (w1 ++ '=' :: (w2 ++ (v ++ scan2 rest))) =
                K0 ++ (spaceLit ++ (w1 ++ '=' :: (w2 ++ (v ++ scan2 rest)))) := by
              rw [← hK0]
              simp
            rw [hs2, hb4, scan1_run_space K0 _ hK0all,
              scan1_space_block w1 w2 v (scan2 rest)
                (matchAfterKey_replay_scan2 hmk2) hres2, hrestP]
        · have hKE : (w1 ++ '=' :: (w2 ++ (v ++ rest))).takeWhile isWordChar = [] :=
            matchAfterKey_arg_take_nil hw1s
          have hvrfix : scan1 (v ++ rest) = v ++ rest := by
            have h1 := hfix
            rw [hmb2, scan1_word_prefix_nosp _ _ hKall hKsp hKE,
              scan1_after_key w1 w2 _ hw1s hw2s] at h1
            have h3 := List.append_cancel_left h1
            have h4 := List.append_cancel_left h3
            have h5 : w2 ++ scan1 (v ++ rest) = w2 ++ (v ++ rest) := by
              injection h4
            exact List.append_cancel_left h5
          by_cases hres : isReserved v = true
          · have hs2 : scan2 (c :: t) = (c :: t.takeWhile isWordChar) ++
                ('=' :: '"' :: (v ++ '"' :: scan2 rest)) := by
              conv_lhs => rw [hmb2]
              exact scan2_block_res c _ w1 w2 v rest hw htwAll hmk2 hres
            have hrestP : scan1 (scan2 rest) = scan2 rest := by
              rcases derive_St v rest hvAll (matchAfterKey_inner hmk) hvrfix with h1 | h1
              · exact (ih rest hrestL).1 h1
              · exact ((ih rest hrestL).2 h1).1
            rw [hs2, scan1_quoted_walk _ v (scan2 rest) hKall hvAll, hrestP]
          · have hres2 : isReserved v = false := by simpa using hres
            have hs2 : scan2 (c :: t) = (c :: t.takeWhile isWordChar) ++
                (w1 ++ '=' :: (w2 ++ (v ++ scan2 rest))) := by
              conv_lhs => rw [hmb2]
              exact scan2_block c _ w1 w2 v rest hw htwAll hmk2 hres2
            rw [hs2, scan1_word_prefix_nosp _ _ hKall hKsp
              (matchAfterKey_arg_take_nil hw1s),
              scan1_after_key w1 w2 _ hw1s hw2s,
              scan1_vwalk n2 ih v rest hrestL hvAll (matchAfterKey_inner hmk) hvrfix]
    · have hw2 : isWordChar c = false := by simpa using hw
      have htfix : scan1 t = t := by
        have h1 := hfix
        rw [scan1_cons_nostrip (stripSpaceLit_none_of_head (nonword_ne_s hw2))] at h1
        injection h1
      rw [scan2_cons_nonword hw2,
        scan1_cons_nostrip (stripSpaceLit_none_of_head (nonword_ne_s hw2)),
        (ih t (by omega)).1 htfix]

/-- The residue case of the main theorem: a residue state rescans to a
fixed point of the first scan, and stays fixed even with the literal
`space` prepended. -/
theorem scan1_rform (n2 : Nat)
    (ih : ∀ r : List Char, r.length ≤ n2 →
      (scan1 r = r → scan1 (scan2 r) = scan2 r) ∧
      (Rform r → scan1 (scan2 r) = scan2 r ∧
        scan1 (spaceLit ++ scan2 r) = spaceLit ++ scan2 r))
    (m : List Char) (hm : m.length ≤ n2 + 1) (hR : Rform m) :
    scan1 (scan2 m) = scan2 m ∧
    scan1 (spaceLit ++ scan2 m) = spaceLit ++ scan2 m := by
  obtain ⟨s1, w2, V, q, hmeq, hs1, hw2, hVne, hVAll, hVres, hmv, hqfix⟩ := hR
  subst hmeq
  rcases V with _ | ⟨c0, V1⟩
  · exact absurd rfl hVne
  have hc0 : isWordChar c0 = true := hVAll c0 (by simp)
  have hV1 : ∀ d ∈ V1, isWordChar d = true := fun d hd => hVAll d (by simp [hd])
  have hLm := hm
  simp only [List.length_append, List.length_cons] at hLm
  have hql : q.length ≤ n2 := by omega
  obtain ⟨CONT, hC1, hC2, hC3, hC4⟩ :
      ∃ CONT, scan2 ((c0 :: V1) ++ q) = (c0 :: V1) ++ CONT ∧
        matchValue ((c0 :: V1) ++ CONT) = some (c0 :: V1, CONT) ∧
        scan1 ((c0 :: V1) ++ CONT) = (c0 :: V1) ++ CONT ∧
        scan1 CONT = CONT := by
    rcases matchValue_shape hmv with ⟨_, _, _, hr, hl⟩ |
      ⟨g, dw, hq, hg, _, _, _, hdw, hl⟩
    · cases hmq : matchAfterKey q with
      | none =>
        have hfixVq : scan1 ((c0 :: V1) ++ q) = (c0 :: V1) ++ q := by
          by_cases hvsp : spaceLit <:+ (c0 :: V1)
          · obtain ⟨V0, hV0⟩ := hvsp
            have hV0all : ∀ d ∈ V0, isWordChar d = true := by
              intro d hd
              apply hVAll
              rw [← hV0]
              exact List.mem_append_left _ hd
            rw [← hV0]
            have hb : (V0 ++ spaceLit) ++ q = V0 ++ (spaceLit ++ q) := by simp
            rw [hb, scan1_run_space V0 q hV0all, scan1_space_walk q hmq, hqfix]
          · rw [scan1_word_prefix_nosp _ _ hVAll hvsp hr, hqfix]
        refine ⟨scan2 q, scan2_word_pfx _ _ hVAll hr hmq, ?_, ?_,
          (ih q hql).1 hqfix⟩
        · exact matchValue_build_nb hVne hVAll
            (take_nil_of_head_pres (scan2_head q) hr)
            (by rw [lookahead_scan2]; exact hl)
        · exact scan1_vwalk n2 ih _ q hql hVAll hmv hfixVq
      | some p =>
        obtain ⟨w1b, w2b, vb, qb⟩ := p
        obtain ⟨hqe, hw1b, hw2b, hvbne, hvbAll⟩ := matchAfterKey_some_inv hmq
        have hqe2 : q = w1b ++ '=' :: (w2b ++ (vb ++ qb)) := by
          rw [hqe]
          simp
        have hmq2 : matchAfterKey (w1b ++ '=' :: (w2b ++ (vb ++ qb))) =
            some (w1b, w2b, vb, qb) := by
          rw [← hqe2]
          exact hmq
        have hqbl : qb.length ≤ n2 := by
          have hlq := congrArg List.length hqe2
          simp only [List.length_append, List.length_cons] at hlq
          omega
        have hfixb : scan1 (vb ++ qb) = vb ++ qb := by
          have h0 := hqfix
          rw [hqe2, scan1_after_key w1b w2b _ hw1b hw2b] at h0
          have h3 := List.append_cancel_left h0
          have h4 : w2b ++ scan1 (vb ++ qb) = w2b ++ (vb ++ qb) := by
            injection h3
          exact List.append_cancel_left h4
        have hPqb : scan1 (scan2 qb) = scan2 qb := by
          rcases derive_St vb qb hvbAll (matchAfterKey_inner hmq) hfixb with h1 | h1
          · exact (ih qb hqbl).1 h1
          · exact ((ih qb hqbl).2 h1).1
        have hvwb := scan1_vwalk n2 ih vb qb hqbl hvbAll
          (matchAfterKey_inner hmq) hfixb
        by_cases hres : isReserved vb = true
        · refine ⟨'=' :: '"' :: (vb ++ '"' :: scan2 qb), ?_, ?_, ?_, ?_⟩
          · rw [hqe2]
            exact scan2_block_res c0 V1 w1b w2b vb qb hc0 hV1 hmq2 hres
          · exact matchValue_build_nb hVne hVAll
              (takeWhile_nil_of_head (by decide)) (look_quote_block _)
          · rw [scan1_quoted_walk (c0 :: V1) vb (scan2 qb) hVAll hvbAll, hPqb]
          · rw [scan1_eq_cons, scan1_quote_cons,
              scan1_word_pfx vb _ hvbAll (takeWhile_nil_of_head (by decide))
                (matchAfterKey_none_of_head (by decide) (by decide)),
              scan1_quote_cons, hPqb]
        · have hres2 : isReserved vb = false := by simpa using hres
          refine ⟨w1b ++ '=' :: (w2b ++ (vb ++ scan2 qb)), ?_, ?_, ?_, ?_⟩
          · rw [hqe2]
            exact scan2_block c0 V1 w1b w2b vb qb hc0 hV1 hmq2 hres2
          · exact matchValue_build_nb hVne hVAll
              (matchAfterKey_arg_take_nil hw1b) (look_after_key w1b _ hw1b)
          · by_cases hVsp : spaceLit <:+ (c0 :: V1)
            · obtain ⟨V0, hV0⟩ := hVsp
              have hV0all : ∀ d ∈ V0, isWordChar d = true := by
                intro d hd
                apply hVAll
                rw [← hV0]
                exact List.mem_append_left _ hd
              rw [← hV0]
              have hb : (V0 ++ spaceLit) ++ (w1b ++ '=' :: (w2b ++ (vb ++ scan2 qb))) =
                  V0 ++ (spaceLit ++ (w1b ++ '=' :: (w2b ++ (vb ++ scan2 qb)))) := by
                simp
              rw [hb, scan1_run_space V0 _ hV0all,
                scan1_space_block w1b w2b vb (scan2 qb)
                  (matchAfterKey_replay_scan2 hmq2) hres2, hPqb]
            · rw [scan1_word_prefix_nosp _ _ hVAll hVsp
                (matchAfterKey_arg_take_nil hw1b),
                scan1_after_key w1b w2b _ hw1b hw2b, hvwb]
          · rw [scan1_after_key w1b w2b _ hw1b hw2b, hvwb]
    · subst hq
      have hdwl : dw.length ≤ n2 := by
        simp only [List.length_cons] at hql
        omega
      have hdwfix : scan1 dw = dw := by
        have h0 := hqfix
        rw [scan1_cons_bt g dw hdw] at h0
        injection h0
      have hPdw := (ih dw hdwl).1 hdwfix
      have hallg : ∀ d ∈ (c0 :: V1) ++ [g], isWordChar d = true := by
        intro d hd
        rcases List.mem_append.mp hd with h1 | h1
        · exact hVAll d h1
        · rw [List.mem_singleton.mp h1]
          exact hg
      refine ⟨g :: scan2 dw, ?_, ?_, ?_, ?_⟩
      · have hb : (c0 :: V1) ++ g :: dw = ((c0 :: V1) ++ [g]) ++ dw := by simp
        rw [hb, scan2_word_pfx _ _ hallg hdw (mak_none_of_lookahead hl)]
        simp
      · exact matchValue_build_bt hVne hVAll hg
          (take_nil_of_head_pres (scan2_head dw) hdw)
          (by rw [lookahead_scan2]; exact hl)
      · have hb : (c0 :: V1) ++ g :: scan2 dw = ((c0 :: V1) ++ [g]) ++ scan2 dw := by
          simp
        rw [hb, scan1_word_pfx _ _ hallg
          (take_nil_of_head_pres (scan2_head dw) hdw)
          (mak_none_of_lookahead (by rw [lookahead_scan2]; exact hl)), hPdw]
      · rw [scan1_cons_bt g _ (take_nil_of_head_pres (scan2_head dw) hdw), hPdw]
  have hs2m : scan2 (s1 ++ '=' :: (w2 ++ ((c0 :: V1) ++ q))) =
      s1 ++ '=' :: (w2 ++ scan2 ((c0 :: V1) ++ q)) :=
    scan2_after_key s1 w2 _ hs1 hw2
  constructor
  · rw [hs2m, hC1, scan1_after_key s1 w2 _ hs1 hw2, hC3]
  · rw [hs2m, hC1,
      scan1_space_block s1 w2 (c0 :: V1) CONT
        (matchAfterKey_build hs1 hw2 hVne hVAll hC2) hVres, hC4]

/-- Main auxiliary theorem for the composition: a fixed point of the first
scan stays fixed after the second scan, propagated through residue states. -/
theorem scan1_scan2_fix_aux : ∀ (n : Nat) (m : List Char), m.length ≤ n →
    (scan1 m = m → scan1 (scan2 m) = scan2 m) ∧
    (Rform m → scan1 (scan2 m) = scan2 m ∧
      scan1 (spaceLit ++ scan2 m) = spaceLit ++ scan2 m) := by
  intro n
  induction n with
  | zero =>
    intro m hm
    have h0 : m = [] := List.eq_nil_of_length_eq_zero (by omega)
    subst h0
    constructor
    · intro _
      rfl
    · intro hR
      exfalso
      obtain ⟨s1, w2, V, q, hmeq, _⟩ := hR
      have h2 := congrArg List.length hmeq
      simp only [List.length_nil, List.length_append, List.length_cons] at h2
      omega
  | succ n2 ih =>
    intro m hm
    exact ⟨scan1_fix_case n2 ih m hm, scan1_rform n2 ih m hm⟩

/-- A fixed point of the first scan stays fixed after the second scan. -/
theorem scan1_scan2_fix {m : List Char} (h : scan1 m = m) :
    scan1 (scan2 m) = scan2 m :=
  (scan1_scan2_fix_aux m.length m (le_refl _)).1 h

theorem splitOnSpace_cons_other {a : Char} (l : List Char) (h : a ≠ ' ') :
    splitOnSpace (a :: l) =
      match splitOnSpace l with
      | t :: ts => (a :: t) :: ts
      | [] => [[a]] := by
  rw [splitOnSpace.eq_def]
  split
  · rename_i heq
    simp at heq
  · rename_i heq
    rw [List.cons.injEq] at heq
    exact absurd heq.1 h
  · rename_i c2 l2 heq
    rw [List.cons.injEq] at heq
    rw [heq.1, heq.2]

/-- Every character of a split segment comes from the split input. -/
theorem splitOnSpace_subset : ∀ (l t : List Char), t ∈ splitOnSpace l →
    ∀ c ∈ t, c ∈ l := by
  intro l
  induction l with
  | nil =>
    intro t ht c hc
    simp only [splitOnSpace, List.mem_singleton] at ht
    subst ht
    simp at hc
  | cons a l2 ih =>
    intro t ht c hc
    by_cases ha : a = ' '
    · subst ha
      rw [show splitOnSpace (' ' :: l2) = [] :: splitOnSpace l2 from rfl] at ht
      rcases List.mem_cons.mp ht with h1 | h1
      · subst h1
        simp at hc
      · exact List.mem_cons_of_mem _ (ih t h1 c hc)
    · rw [splitOnSpace_cons_other l2 ha] at ht
      cases hsp : splitOnSpace l2 with
      | nil =>
        rw [hsp] at ht
        simp only [List.mem_singleton] at ht
        subst ht
        simp only [List.mem_singleton] at hc
        subst hc
        simp
      | cons t0 ts0 =>
        rw [hsp] at ht
        rcases List.mem_cons.mp ht with h1 | h1
        · subst h1
          rcases List.mem_cons.mp hc with h2 | h2
          · subst h2
            simp
          · have ht0 : t0 ∈ splitOnSpace l2 := by
              rw [hsp]
              simp
            exact List.mem_cons_of_mem _ (ih t0 ht0 c h2)
        · have ht1 : t ∈ splitOnSpace l2 := by
            rw [hsp]
            simp [h1]
          exact List.mem_cons_of_mem _ (ih t ht1 c hc)

theorem textClause_no_eq {t : List Char} (h : '=' ∉ t) : '=' ∉ textClause t := by
  intro hmem
  simp only [textClause, List.mem_cons, List.mem_append, List.mem_singleton] at hmem
  rcases hmem with (h1 | h1 | h1 | h1 | h1 | h1 | h1) | h1
  all_goals first
    | exact h h1
    | exact absurd h1 (by decide)

theorem joinAnd_no_eq : ∀ (ts : List (List Char)), (∀ t ∈ ts, '=' ∉ t) →
    '=' ∉ joinAnd ts := by
  intro ts
  induction ts with
  | nil =>
    intro _
    simp [joinAnd]
  | cons t1 ts2 ih =>
    intro hn
    cases ts2 with
    | nil =>
      show '=' ∉ textClause t1
      exact textClause_no_eq (hn t1 (by simp))
    | cons t2 ts3 =>
      rw [show joinAnd (t1 :: t2 :: ts3) = textClause t1 ++
        ' ' :: 'A' :: 'N' :: 'D' :: ' ' :: joinAnd (t2 :: ts3) from rfl]
      intro hmem
      rcases List.mem_append.mp hmem with h1 | h1
      · exact textClause_no_eq (hn t1 (by simp)) h1
      · rcases List.mem_cons.mp h1 with h2 | h2
        · exact absurd h2 (by decide)
        · rcases List.mem_cons.mp h2 with h3 | h3
          · exact absurd h3 (by decide)
          · rcases List.mem_cons.mp h3 with h4 | h4
            · exact absurd h4 (by decide)
            · rcases List.mem_cons.mp h4 with h5 | h5
              · exact absurd h5 (by decide)
              · rcases List.mem_cons.mp h5 with h6 | h6
                · exact absurd h6 (by decide)
                · exact ih (fun t ht => hn t (by simp [ht])) h6

theorem hasSub_append_right (pat a b : List Char) (h : hasSub pat b = true) :
    hasSub pat (a ++ b) = true := by
  induction a with
  | nil => simpa using h
  | cons x a2 ih =>
    rw [List.cons_append]
    simp [hasSub, ih]

theorem hasSub_AND_joinAnd (t1 t2 : List Char) (ts : List (List Char)) :
    hasSub [' ', 'A', 'N', 'D', ' '] (joinAnd (t1 :: t2 :: ts)) = true := by
  rw [show joinAnd (t1 :: t2 :: ts) = textClause t1 ++
    ' ' :: 'A' :: 'N' :: 'D' :: ' ' :: joinAnd (t2 :: ts) from rfl]
  apply hasSub_append_right
  simp [hasSub, List.isPrefixOf]

theorem no_eq_of_no_complex {l : List Char} (h : hasComplexSyntax l = false) :
    '=' ∉ l := by
  intro hmem
  have h2 : hasComplexSyntax l = true := by
    unfold hasComplexSyntax
    rw [List.any_eq_true]
    exact ⟨'=', hmem, by decide⟩
  rw [h] at h2
  exact absurd h2 (by decide)

/-- C1: the query normalizer `processCqlQuery` is idempotent: applying it
twice gives the same result as applying it once, for every input string.
The two keyword-quoting scans are each idempotent, the second scan
preserves fixed points of the first, and the free-text rewrite either
leaves the scans' output unchanged or produces a conjunction of `text~`
clauses that contains `" AND "` and no `=`, on which all three steps are
the identity. -/
theorem processCqlQuery_idempotent (x : String) :
    processCqlQuery (processCqlQuery x) = processCqlQuery x := by
  show String.mk (step3 (scan2 (scan1 (processCqlQuery x).data))) =
    String.mk (step3 (scan2 (scan1 x.data)))
  have hdm : (processCqlQuery x).data = step3 (scan2 (scan1 x.data)) := rfl
  rw [hdm]
  refine congrArg String.mk ?_
  have hy1 : scan1 (scan2 (scan1 x.data)) = scan2 (scan1 x.data) :=
    scan1_scan2_fix (scan1_idem x.data)
  have hy2 : scan2 (scan2 (scan1 x.data)) = scan2 (scan1 x.data) :=
    scan2_idem (scan1 x.data)
  have hcases : step3 (scan2 (scan1 x.data)) = scan2 (scan1 x.data) ∨
      ∃ t1 t2 ts, step3 (scan2 (scan1 x.data)) = joinAnd (t1 :: t2 :: ts) ∧
        (∀ t ∈ t1 :: t2 :: ts, '=' ∉ t) := by
    simp only [step3]
    split
    · rename_i hcond
      split
      · rename_i hlen
        split
        · rename_i hcx
          right
          have hnoeq : '=' ∉ scan2 (scan1 x.data) :=
            no_eq_of_no_complex (by simpa using hcx)
          rcases hflt : (splitOnSpace (scan2 (scan1 x.data))).filter trimTruthy with
            _ | ⟨t1, tl⟩
          · rw [hflt] at hlen
            simp at hlen
          · rcases tl with _ | ⟨t2, ts⟩
            · rw [hflt] at hlen
              simp at hlen
            · refine ⟨t1, t2, ts, rfl, ?_⟩
              intro t ht hc
              apply hnoeq
              apply splitOnSpace_subset (scan2 (scan1 x.data)) t ?_ '=' hc
              have ht2 : t ∈ (splitOnSpace (scan2 (scan1 x.data))).filter trimTruthy := by
                rw [hflt]
                exact ht
              exact (List.mem_filter.mp ht2).1
        · left
          rfl
      · left
        rfl
    · left
      rfl
  rcases hcases with heq | ⟨t1, t2, ts, heq, hne⟩
  · rw [heq, hy1, hy2, heq]
  · rw [heq]
    have hz : '=' ∉ joinAnd (t1 :: t2 :: ts) := joinAnd_no_eq _ hne
    rw [scan1_no_eq hz, scan2_no_eq hz]
    have hAND := hasSub_AND_joinAnd t1 t2 ts
    unfold step3
    rw [hAND]
    simp

end ConfluenceCore
